import Mathlib

/-!
Verification of the V4A patch engine (codex-apply-patch).

The TypeScript source is shallowly embedded: text is `List Char`, a file is a
`List Line` (the result of splitting on newline), fallible functions return
`Except DiffError`.  JavaScript loops over indices are rendered as structural
recursion over the remaining list (plus a fuel argument for the outer section
loop of `applyV4AUpdate`, supplied with more fuel than the loop can consume).
The filesystem visible to `applyOperations` is modelled as an association list
from validated relative paths to file contents; directory creation does not
affect that map and the atomic temp-file dance of `writeFileAtomic` is
modelled by its contract, a single map update.
-/

namespace V4A

abbrev Line := List Char

/-- JavaScript whitespace class (the set matched by regexp \s and trimmed by
String.prototype.trim): ASCII whitespace plus the Unicode space separators. -/
def isJsWs (c : Char) : Bool :=
  c = ' ' || c = '\t' || c = '\n' || c.toNat = 0x0b || c.toNat = 0x0c || c = '\r' ||
  c.toNat = 0xa0 || c.toNat = 0x1680 || (0x2000 ≤ c.toNat && c.toNat ≤ 0x200a) ||
  c.toNat = 0x2028 || c.toNat = 0x2029 || c.toNat = 0x202f || c.toNat = 0x205f ||
  c.toNat = 0x3000 || c.toNat = 0xfeff

/-- s.replace(/\s+$/g, "") : strip trailing whitespace. -/
def rstrip (l : Line) : Line := (l.reverse.dropWhile isJsWs).reverse

/-- s.trim() : strip leading and trailing whitespace. -/
def trim (l : Line) : Line := rstrip (l.dropWhile isJsWs)

/-- First pass of normalizeLineEndings: text.replace(/\r\n/g, "\n"),
scanning left to right over non-overlapping matches. -/
def replCRLF : List Char → List Char
  | [] => []
  | [c] => [c]
  | c :: d :: rest =>
    if c = '\r' && d = '\n' then '\n' :: replCRLF rest
    else c :: replCRLF (d :: rest)

/-- Second pass: text.replace(/\r/g, "\n"). -/
def replCR (l : List Char) : List Char :=
  l.map (fun c => if c = '\r' then '\n' else c)

/-- normalizeLineEndings from the source: CRLF to LF, then lone CR to LF. -/
def normalizeLineEndings (t : List Char) : List Char := replCR (replCRLF t)

/-- text.split(sep) for a one-character separator (JavaScript semantics:
splitting the empty text yields one empty piece). -/
def splitSep (sep : Char) : List Char → List (List Char)
  | [] => [[]]
  | c :: rest =>
    if c = sep then [] :: splitSep sep rest
    else
      match splitSep sep rest with
      | [] => [[c]]
      | l :: ls => (c :: l) :: ls

/-- t.includes(pat) : substring test. -/
def hasSubstr (pat : List Char) : List Char → Bool
  | [] => pat.isEmpty
  | c :: rest => pat.isPrefixOf (c :: rest) || hasSubstr pat rest

/-- pieces.join(sep) for a one-character separator. -/
def joinSep (sep : Char) : List (List Char) → List Char
  | [] => []
  | [l] => l
  | l :: ls => l ++ sep :: joinSep sep ls

/-- Error taxonomy of the engine; each constructor carries the data that the
corresponding thrown DiffError message interpolates. -/
inductive DiffError where
  | pathEmpty : DiffError
  | pathNul (raw : List Char) : DiffError
  | pathAbsolute (raw : List Char) : DiffError
  | pathAbsoluteWin (raw : List Char) : DiffError
  | pathDot (raw : List Char) : DiffError
  | pathTraversal (raw : List Char) : DiffError
  | invalidLine (l : Line) : DiffError
  | nothingInSection (l : Line) : DiffError
  | invalidSectionMarker (l : Line) : DiffError
  | invalidEofContext (fileIndex : Nat) (ctx : List Line) : DiffError
  | invalidContext (fileIndex : Nat) (ctx : List Line) : DiffError
  | nonMonotonic (origIndex chunkOrig : Nat) : DiffError
  | conflict (atLine : Nat) (expected actual : List Line) : DiffError
  | invalidCreateLine (l : Line) : DiffError
  | missingDiff : DiffError
  | fileExists (p : List Char) : DiffError
  | fileNotFound (p : List Char) : DiffError
  | progressFailure : DiffError
  deriving DecidableEq

/-- normalizePatchPath: p.replace(/\\/g, "/").trim(). -/
def normalizePatchPath (p : List Char) : List Char :=
  trim (p.map (fun c => if c = '\\' then '/' else c))

/-- Test for /^[A-Za-z]:\// (absolute Windows-style drive path). -/
def isWinAbs (raw : List Char) : Bool :=
  match raw with
  | c :: ':' :: '/' :: _ => (('A' ≤ c && c ≤ 'Z') || ('a' ≤ c && c ≤ 'z'))
  | _ => false

/-- One segment step of Node's posix normalizeString: skip empty and ".",
".." pops unless the stack is empty or topped by "..".  The stack is kept
reversed. -/
def normStep (allowUp : Bool) (stack : List (List Char)) (seg : List Char) :
    List (List Char) :=
  if seg = [] || seg = ['.'] then stack
  else if seg = ['.', '.'] then
    match stack with
    | [] => if allowUp then [['.', '.']] else []
    | top :: rest =>
      if top = ['.', '.'] then (if allowUp then seg :: stack else stack)
      else rest
  else seg :: stack

/-- Node path.posix.normalize, modelled as a dependency of
validateRelativePath: lexically collapse "." and ".." segments. -/
def posixNormalize (pth : List Char) : List Char :=
  if pth = [] then ['.']
  else
    let isAbs := pth.head? = some '/'
    let trailing := pth.getLast? = some '/'
    let core := joinSep '/' (((splitSep '/' pth).foldl (normStep !isAbs) []).reverse)
    if core = [] then
      if isAbs then ['/'] else if trailing then ['.', '/'] else ['.']
    else
      (if isAbs then ['/'] else []) ++ core ++ (if trailing then ['/'] else [])

/-- validateRelativePath from the source: pure string validation, in the
source's order of checks. -/
def validateRelativePath (p : List Char) : Except DiffError (List Char) :=
  let raw := normalizePatchPath p
  if raw = [] then .error .pathEmpty
  else if raw.contains (Char.ofNat 0) then .error (.pathNul raw)
  else if raw.head? = some '/' then .error (.pathAbsolute raw)
  else if isWinAbs raw then .error (.pathAbsoluteWin raw)
  else
    let normalized := posixNormalize raw
    if normalized = ['.'] then .error (.pathDot raw)
    else if normalized = ['.', '.'] || (("../".toList).isPrefixOf normalized)
        || hasSubstr ("/../".toList) normalized then
      .error (.pathTraversal raw)
    else .ok normalized

/-- The class of paths claim C7 asserts are rejected: empty, NUL-containing,
absolute POSIX, absolute Windows-drive, or escaping under lexical
normalization (normalizing to ".", "..", a "../" prefix or containing
"/../"). -/
def badPath (p : List Char) : Prop :=
  p = [] ∨ (Char.ofNat 0) ∈ p ∨ p.head? = some '/'
    ∨ isWinAbs (normalizePatchPath p) = true
    ∨ posixNormalize (normalizePatchPath p) = ['.']
    ∨ posixNormalize (normalizePatchPath p) = ['.', '.']
    ∨ (("../".toList).isPrefixOf (posixNormalize (normalizePatchPath p))) = true
    ∨ hasSubstr ("/../".toList) (posixNormalize (normalizePatchPath p)) = true

instance (p : List Char) : Decidable (badPath p) := by
  unfold badPath; infer_instance

instance exceptDecEq {e a : Type} [DecidableEq e] [DecidableEq a] :
    DecidableEq (Except e a) := fun x y =>
  match x, y with
  | .error e1, .error e2 =>
    if h : e1 = e2 then .isTrue (by rw [h])
    else .isFalse (by intro hc; cases hc; exact h rfl)
  | .error _, .ok _ => .isFalse (by intro hc; cases hc)
  | .ok _, .error _ => .isFalse (by intro hc; cases hc)
  | .ok a1, .ok a2 =>
    if h : a1 = a2 then .isTrue (by rw [h])
    else .isFalse (by intro hc; cases hc; exact h rfl)

lemma mem_dropWhile_of_mem {α : Type} {P : α → Bool} {x : α} :
    ∀ {l : List α}, x ∈ l → P x = false → x ∈ l.dropWhile P := by
  intro l
  induction l with
  | nil => simp
  | cons c t ih =>
    intro hx hP
    by_cases hc : P c = true
    · rw [List.dropWhile_cons, if_pos hc]
      rcases List.mem_cons.mp hx with rfl | hx
      · rw [hc] at hP; cases hP
      · exact ih hx hP
    · rw [List.dropWhile_cons, if_neg hc]
      exact hx

lemma mem_trim_of_mem {x : Char} {l : List Char} (hx : x ∈ l)
    (hP : isJsWs x = false) : x ∈ trim l := by
  unfold trim rstrip
  have h1 : x ∈ l.dropWhile isJsWs := mem_dropWhile_of_mem hx hP
  have h2 : x ∈ (l.dropWhile isJsWs).reverse := List.mem_reverse.mpr h1
  exact List.mem_reverse.mpr (mem_dropWhile_of_mem h2 hP)

lemma head?_rstrip {c : Char} {t : List Char} (hc : isJsWs c = false) :
    (rstrip (c :: t)).head? = some c := by
  unfold rstrip
  rw [List.reverse_cons, List.dropWhile_append]
  split
  · rw [List.dropWhile_cons]
    simp [hc]
  · simp

lemma head?_trim {c : Char} {l : List Char} (h : l.head? = some c)
    (hc : isJsWs c = false) : (trim l).head? = some c := by
  cases l with
  | nil => cases h
  | cons a t =>
    have ha : a = c := by simpa using h
    subst ha
    unfold trim
    rw [List.dropWhile_cons, if_neg (by simp [hc])]
    exact head?_rstrip hc

lemma normalizePatchPath_head_slash {p : List Char} (h : p.head? = some '/') :
    (normalizePatchPath p).head? = some '/' := by
  unfold normalizePatchPath
  cases p with
  | nil => cases h
  | cons a t =>
    have ha : a = '/' := by simpa using h
    subst ha
    exact head?_trim (by simp) (by decide)

lemma normalizePatchPath_mem_nul {p : List Char} (h : (Char.ofNat 0) ∈ p) :
    (Char.ofNat 0) ∈ normalizePatchPath p := by
  unfold normalizePatchPath
  refine mem_trim_of_mem ?_ (by decide)
  have := List.mem_map_of_mem (fun c => if c = '\\' then '/' else c) h
  simpa using this

/-- If validation succeeds, the input is in none of the rejected classes. -/
lemma validateRelativePath_ok_not_bad {p r : List Char}
    (h : validateRelativePath p = .ok r) : ¬ badPath p := by
  intro hbad
  simp only [validateRelativePath] at h
  split at h
  · cases h
  · split at h
    · cases h
    · split at h
      · cases h
      · split at h
        · cases h
        · split at h
          · cases h
          · split at h
            · cases h
            · rename_i h1 h2 h3 h4 h5 h6
              rcases hbad with hb | hb | hb | hb | hb | hb | hb | hb
              · exact h1 (by rw [hb]; decide)
              · exact h2 (by
                  have := normalizePatchPath_mem_nul hb
                  simpa [List.contains] using List.elem_eq_true_of_mem this)
              · exact h3 (normalizePatchPath_head_slash hb)
              · exact h4 hb
              · exact h5 hb
              · exact h6 (by rw [hb]; simp)
              · exact h6 (by rw [hb]; simp)
              · exact h6 (by rw [hb]; simp)

/-- C7 (Traversal rejection): validate fails with a path error on
"../escape.txt", "/etc/passwd" and "a/../../b", and in general on every
empty, NUL-containing, absolute POSIX, absolute Windows-drive, or
normalization-escaping path.  The embedded validator is a pure string
function, so no filesystem access can occur. -/
theorem c7_traversalRejection :
    (validateRelativePath ("../escape.txt".toList) =
        .error (.pathTraversal ("../escape.txt".toList))) ∧
    (validateRelativePath ("/etc/passwd".toList) =
        .error (.pathAbsolute ("/etc/passwd".toList))) ∧
    (validateRelativePath ("a/../../b".toList) =
        .error (.pathTraversal ("a/../../b".toList))) ∧
    ∀ p : List Char, badPath p → ∃ e, validateRelativePath p = .error e := by
  refine ⟨by decide, by decide, by decide, ?_⟩
  intro p hbad
  cases heq : validateRelativePath p with
  | error e => exact ⟨e, rfl⟩
  | ok r => exact absurd hbad (validateRelativePath_ok_not_bad heq)

/-- C7 witness: the general rejection applied at the concrete path "..". -/
theorem c7_traversalRejection_witness :
    ∃ e, validateRelativePath ("..".toList) = .error e :=
  c7_traversalRejection.2.2.2 ("..".toList) (by decide)

/-- Window comparison under a per-line projection f: the window of `lines`
of length |ctx| starting at i, compared to ctx after mapping f over both. -/
def windowEq (f : Line → Line) (lines ctx : List Line) (i : Nat) : Bool :=
  ((lines.drop i).take ctx.length).map f == ctx.map f

/-- Candidate window start indices of the JS loop
`for i = start; i <= stop; i++`. -/
def candidates (start stop : Nat) : List Nat := List.range' start (stop + 1 - start)

/-- findContextCore from the source: three passes over all windows starting
at or after `start` — exact, trailing-whitespace-stripped, fully trimmed.
(The JS loops run over no indices when |lines| < |ctx| because the stop bound
is negative; with Nat arithmetic this is an explicit guard.) -/
def findContextCore (lines ctx : List Line) (start : Nat) : Option Nat × Nat :=
  if ctx = [] then (some start, 0)
  else if lines.length < ctx.length then (none, 0)
  else
    match (candidates start (lines.length - ctx.length)).find? (windowEq id lines ctx) with
    | some i => (some i, 0)
    | none =>
      match (candidates start (lines.length - ctx.length)).find? (windowEq rstrip lines ctx) with
      | some i => (some i, 1)
      | none =>
        match (candidates start (lines.length - ctx.length)).find? (windowEq trim lines ctx) with
        | some i => (some i, 100)
        | none => (none, 0)

/-- findContext from the source: an end-of-file section first tries the
window ending at the last line (Math.max(0, n - c) is Nat subtraction), and
otherwise falls back to the forward scan plus a 10000 fuzz penalty. -/
def findContext (lines ctx : List Line) (start : Nat) (eof : Bool) :
    Option Nat × Nat :=
  if eof then
    match findContextCore lines ctx (lines.length - ctx.length) with
    | (some i, f) => (some i, f)
    | (none, _) =>
      let fallback := findContextCore lines ctx start
      (fallback.1, fallback.2 + 10000)
  else findContextCore lines ctx start

/-- A window of `lines` at index i fits in bounds and matches ctx under the
projection f. -/
def matchAt (f : Line → Line) (lines ctx : List Line) (i : Nat) : Prop :=
  i + ctx.length ≤ lines.length ∧ windowEq f lines ctx i = true

instance (f : Line → Line) (lines ctx : List Line) (i : Nat) :
    Decidable (matchAt f lines ctx i) := by
  unfold matchAt; infer_instance

lemma find?_range'_eq_some {p : Nat → Bool} {i : Nat} :
    ∀ {s len : Nat}, s ≤ i → i < s + len → p i = true →
      (∀ j, s ≤ j → j < i → p j = false) →
      (List.range' s len).find? p = some i := by
  intro s len
  induction len generalizing s with
  | zero => intro h1 h2; omega
  | succ n ih =>
    intro hsi hilen hpi hmin
    have hr : List.range' s (n + 1) = s :: List.range' (s + 1) n := rfl
    rw [hr, List.find?_cons]
    by_cases hs : s = i
    · subst hs; rw [hpi]
    · have hlt : s < i := Nat.lt_of_le_of_ne hsi hs
      rw [hmin s (Nat.le_refl s) hlt]
      exact ih hlt (by omega) hpi fun j h1 h2 => hmin j (by omega) h2

lemma find?_range'_eq_none {p : Nat → Bool} :
    ∀ {s len : Nat}, (∀ j, s ≤ j → j < s + len → p j = false) →
      (List.range' s len).find? p = none := by
  intro s len
  induction len generalizing s with
  | zero => intro _; rfl
  | succ n ih =>
    intro hall
    have hr : List.range' s (n + 1) = s :: List.range' (s + 1) n := rfl
    rw [hr, List.find?_cons, hall s (Nat.le_refl s) (by omega)]
    exact ih fun j h1 h2 => hall j (by omega) (by omega)

lemma windowEq_false_of_oob {f : Line → Line} {lines ctx : List Line} {j : Nat}
    (hne : ctx ≠ []) (hj : lines.length < j + ctx.length) :
    windowEq f lines ctx j = false := by
  unfold windowEq
  rw [beq_eq_false_iff_ne]
  intro hEq
  have hlen := congrArg List.length hEq
  have hc : 0 < ctx.length := List.length_pos.mpr hne
  simp only [List.length_map, List.length_take, List.length_drop] at hlen
  omega

lemma rstrip_cons (c : Char) (t : List Char) :
    rstrip (c :: t) =
      if rstrip t = [] then (if isJsWs c then [] else [c]) else c :: rstrip t := by
  unfold rstrip
  rw [List.reverse_cons, List.dropWhile_append]
  by_cases h : (t.reverse.dropWhile isJsWs) = []
  · by_cases hc : isJsWs c
    · simp [h, hc, List.dropWhile_cons]
    · simp [h, hc, List.dropWhile_cons]
  · simp [h]

lemma rstrip_dropWhile_comm (l : List Char) :
    rstrip (l.dropWhile isJsWs) = (rstrip l).dropWhile isJsWs := by
  induction l with
  | nil => rfl
  | cons c t ih =>
    by_cases hc : isJsWs c
    · rw [List.dropWhile_cons, if_pos hc, ih, rstrip_cons]
      by_cases ht : rstrip t = []
      · simp [ht, hc]
      · rw [if_neg ht, List.dropWhile_cons, if_pos hc]
    · rw [List.dropWhile_cons, if_neg hc, rstrip_cons]
      by_cases ht : rstrip t = []
      · simp [ht, hc, List.dropWhile_cons]
      · rw [if_neg ht, List.dropWhile_cons, if_neg hc]

lemma trim_eq_of_rstrip_eq {a b : List Char} (h : rstrip a = rstrip b) :
    trim a = trim b := by
  unfold trim
  rw [rstrip_dropWhile_comm, rstrip_dropWhile_comm, h]

lemma map_trim_eq_of_map_rstrip_eq :
    ∀ {l1 l2 : List Line}, l1.map rstrip = l2.map rstrip →
      l1.map trim = l2.map trim := by
  intro l1
  induction l1 with
  | nil => intro l2 h; cases l2 with
    | nil => rfl
    | cons b t => simp at h
  | cons a t ih =>
    intro l2 h
    cases l2 with
    | nil => simp at h
    | cons b u =>
      simp only [List.map_cons, List.cons.injEq] at h ⊢
      exact ⟨trim_eq_of_rstrip_eq h.1, ih h.2⟩

lemma windowEq_rstrip_of_id {lines ctx : List Line} {i : Nat}
    (h : windowEq id lines ctx i = true) : windowEq rstrip lines ctx i = true := by
  unfold windowEq at h ⊢
  rw [beq_iff_eq] at h
  rw [beq_iff_eq]
  simp only [List.map_id] at h
  rw [h]

lemma windowEq_trim_of_rstrip {lines ctx : List Line} {i : Nat}
    (h : windowEq rstrip lines ctx i = true) : windowEq trim lines ctx i = true := by
  unfold windowEq at h ⊢
  rw [beq_iff_eq] at h
  rw [beq_iff_eq]
  exact map_trim_eq_of_map_rstrip_eq h

lemma matchAt_rstrip_of_id {lines ctx : List Line} {i : Nat}
    (h : matchAt id lines ctx i) : matchAt rstrip lines ctx i :=
  ⟨h.1, windowEq_rstrip_of_id h.2⟩

lemma matchAt_trim_of_rstrip {lines ctx : List Line} {i : Nat}
    (h : matchAt rstrip lines ctx i) : matchAt trim lines ctx i :=
  ⟨h.1, windowEq_trim_of_rstrip h.2⟩

lemma find?_windows_eq_some {f : Line → Line} {lines ctx : List Line}
    {start i : Nat} (hne : ctx ≠ []) (hsi : start ≤ i)
    (hm : matchAt f lines ctx i)
    (hmin : ∀ j, start ≤ j → j < i → ¬ matchAt f lines ctx j) :
    (candidates start (lines.length - ctx.length)).find? (windowEq f lines ctx) =
      some i := by
  have hc : 0 < ctx.length := List.length_pos.mpr hne
  refine find?_range'_eq_some hsi ?_ hm.2 ?_
  · have := hm.1; unfold candidates at *; omega
  · intro j h1 h2
    by_cases hb : j + ctx.length ≤ lines.length
    · by_cases hw : windowEq f lines ctx j = true
      · exact absurd ⟨hb, hw⟩ (hmin j h1 h2)
      · exact Bool.eq_false_iff.mpr hw
    · exact windowEq_false_of_oob hne (by omega)

lemma find?_windows_eq_none {f : Line → Line} {lines ctx : List Line}
    {start : Nat} (hne : ctx ≠ [])
    (hall : ∀ j, start ≤ j → ¬ matchAt f lines ctx j) :
    (candidates start (lines.length - ctx.length)).find? (windowEq f lines ctx) =
      none := by
  refine find?_range'_eq_none ?_
  intro j h1 _
  by_cases hb : j + ctx.length ≤ lines.length
  · by_cases hw : windowEq f lines ctx j = true
    · exact absurd ⟨hb, hw⟩ (hall j h1)
    · exact Bool.eq_false_iff.mpr hw
  · exact windowEq_false_of_oob hne (by omega)

/-- C5 (Three-tier matching): for a non-empty context, findContextCore tries
exact equality (fuzz 0), then equality after stripping trailing whitespace
(fuzz 1), then equality after fully trimming each line (fuzz 100), over all
windows starting at or after `start`; the first pass with a match wins, the
lowest-index window wins within a pass, and with no match anywhere the
position is not found. -/
theorem c5_threeTier (lines ctx : List Line) (start : Nat) (hne : ctx ≠ []) :
    (∀ i, start ≤ i → matchAt id lines ctx i →
        (∀ j, start ≤ j → j < i → ¬ matchAt id lines ctx j) →
        findContextCore lines ctx start = (some i, 0)) ∧
    ((∀ j, start ≤ j → ¬ matchAt id lines ctx j) →
      ∀ i, start ≤ i → matchAt rstrip lines ctx i →
        (∀ j, start ≤ j → j < i → ¬ matchAt rstrip lines ctx j) →
        findContextCore lines ctx start = (some i, 1)) ∧
    ((∀ j, start ≤ j → ¬ matchAt id lines ctx j) →
      (∀ j, start ≤ j → ¬ matchAt rstrip lines ctx j) →
      ∀ i, start ≤ i → matchAt trim lines ctx i →
        (∀ j, start ≤ j → j < i → ¬ matchAt trim lines ctx j) →
        findContextCore lines ctx start = (some i, 100)) ∧
    ((∀ j, start ≤ j → ¬ matchAt trim lines ctx j) →
      findContextCore lines ctx start = (none, 0)) := by
  have hc : 0 < ctx.length := List.length_pos.mpr hne
  refine ⟨?_, ?_, ?_, ?_⟩
  · intro i hsi hm hmin
    have hn : ¬ lines.length < ctx.length := by have := hm.1; omega
    unfold findContextCore
    rw [if_neg hne, if_neg hn, find?_windows_eq_some hne hsi hm hmin]
  · intro hnoid i hsi hm hmin
    have hn : ¬ lines.length < ctx.length := by have := hm.1; omega
    unfold findContextCore
    rw [if_neg hne, if_neg hn, find?_windows_eq_none hne hnoid,
      find?_windows_eq_some hne hsi hm hmin]
  · intro hnoid hnors i hsi hm hmin
    have hn : ¬ lines.length < ctx.length := by have := hm.1; omega
    unfold findContextCore
    rw [if_neg hne, if_neg hn, find?_windows_eq_none hne hnoid,
      find?_windows_eq_none hne hnors, find?_windows_eq_some hne hsi hm hmin]
  · intro hnotr
    have hnors : ∀ j, start ≤ j → ¬ matchAt rstrip lines ctx j :=
      fun j hj hm => hnotr j hj (matchAt_trim_of_rstrip hm)
    have hnoid : ∀ j, start ≤ j → ¬ matchAt id lines ctx j :=
      fun j hj hm => hnors j hj (matchAt_rstrip_of_id hm)
    unfold findContextCore
    by_cases hn : lines.length < ctx.length
    · rw [if_neg hne, if_pos hn]
    · rw [if_neg hne, if_neg hn, find?_windows_eq_none hne hnoid,
        find?_windows_eq_none hne hnors, find?_windows_eq_none hne hnotr]

/-- C5 witness: a window that matches only after stripping trailing
whitespace resolves with fuzz 1 at the first such index. -/
theorem c5_threeTier_witness :
    findContextCore [['a', ' ']] [['a']] 0 = (some 0, 1) := by
  refine (c5_threeTier [['a', ' ']] [['a']] 0 (by decide)).2.1 ?_ 0 (Nat.le_refl 0)
    (by decide) ?_
  · intro j _ hm
    have h1 : j + 1 ≤ 1 := by simpa using hm.1
    have hj : j = 0 := by omega
    subst hj
    exact absurd hm.2 (by decide)
  · intro j _ hj
    exact absurd hj (Nat.not_lt_zero j)

/-- C6 counterexample: with the endOfFile flag set, an empty context does not
resolve at searchFromIndex — locate returns the file length instead. -/
theorem c6_counterexample :
    findContext [['a']] ([] : List Line) 0 true = (some 1, 0) ∧
    ((some 1, 0) : Option Nat × Nat) ≠ (some 0, 0) := by decide

/-- C6 (amended): an empty context resolves at searchFromIndex with fuzz 0
when endOfFile is false; when endOfFile is true the end-anchored attempt
resolves first, at position |targetLines| with fuzz 0. -/
theorem c6_emptyContext_amended (lines : List Line) (start : Nat) :
    findContext lines ([] : List Line) start false = (some start, 0) ∧
    findContext lines ([] : List Line) start true = (some lines.length, 0) := by
  constructor
  · simp [findContext, findContextCore]
  · simp [findContext, findContextCore]

/-- C4 (End-of-file preference): a section flagged end-of-file whose context
occurs mid-file and, verbatim, as the final |context| lines resolves to the
tail occurrence with fuzz 0; when no tail-anchored match exists at any tier,
findContext falls back to the ordinary forward scan from `start` and adds
10000 to that scan's fuzz. -/
theorem c4_eofPreference :
    (∀ (lines ctx : List Line) (start : Nat),
        ctx ≠ [] →
        (∃ i, i + ctx.length < lines.length ∧
          (lines.drop i).take ctx.length = ctx) →
        lines.drop (lines.length - ctx.length) = ctx →
        findContext lines ctx start true =
          (some (lines.length - ctx.length), 0)) ∧
    (∀ (lines ctx : List Line) (start : Nat),
        (findContextCore lines ctx (lines.length - ctx.length)).1 = none →
        findContext lines ctx start true =
          ((findContextCore lines ctx start).1,
            (findContextCore lines ctx start).2 + 10000)) := by
  constructor
  · intro lines ctx start hne _ htail
    have hc : 0 < ctx.length := List.length_pos.mpr hne
    have hlen := congrArg List.length htail
    simp only [List.length_drop] at hlen
    have hcn : ctx.length ≤ lines.length := by omega
    have hcore : findContextCore lines ctx (lines.length - ctx.length) =
        (some (lines.length - ctx.length), 0) := by
      have hm : matchAt id lines ctx (lines.length - ctx.length) := by
        refine ⟨by omega, ?_⟩
        unfold windowEq
        rw [beq_iff_eq, htail]
        rw [show ctx.take ctx.length = ctx from List.take_length ..]
      refine (c5_threeTier lines ctx (lines.length - ctx.length) hne).1
        (lines.length - ctx.length) (Nat.le_refl _) hm ?_
      intro j h1 h2
      omega
    unfold findContext
    rw [if_pos rfl, hcore]
  · intro lines ctx start h
    unfold findContext
    rw [if_pos rfl]
    rcases hco : findContextCore lines ctx (lines.length - ctx.length) with ⟨a, b⟩
    cases a with
    | some i => rw [hco] at h; cases h
    | none => rfl

/-- C4 witness: tail preference on a duplicated window, and the 10000-penalty
fallback when the tail window cannot match. -/
theorem c4_eofPreference_witness :
    findContext [['a'], ['b'], ['a'], ['b']] [['a'], ['b']] 0 true = (some 2, 0) ∧
    findContext [['x']] [['y']] 0 true = (none, 10000) := by
  constructor
  · exact c4_eofPreference.1 _ _ 0 (by decide) ⟨0, by decide, by decide⟩ (by decide)
  · exact (c4_eofPreference.2 [['x']] [['y']] 0 (by decide)).trans (by decide)

/-- First index at or after a start where p holds (forward scan). -/
def findFwdAux (p : Line → Bool) : List Line → Nat → Option Nat
  | [], _ => none
  | l :: rest, i => if p l then some i else findFwdAux p rest (i + 1)

def findFwd (p : Line → Bool) (lines : List Line) (start : Nat) : Option Nat :=
  findFwdAux p (lines.drop start) start

/-- The '@@ label' search of applyV4AUpdate: skipped entirely when the exact
label already occurs in the scanned prefix; otherwise scan forward for an
exact match, then — unless a trimmed match occurs in the prefix — for a
trimmed match, which adds one fuzz point. -/
def labelStep (fileLines : List Line) (defStr : List Char)
    (fileIndex fuzz : Nat) : Nat × Nat :=
  if (fileLines.take fileIndex).any (fun s => s == defStr) then (fileIndex, fuzz)
  else
    match findFwd (fun s => s == defStr) fileLines fileIndex with
    | some i => (i + 1, fuzz)
    | none =>
      if (fileLines.take fileIndex).any (fun s => trim s == trim defStr) then
        (fileIndex, fuzz)
      else
        match findFwd (fun s => trim s == trim defStr) fileLines fileIndex with
        | some i => (i + 1, fuzz + 1)
        | none => (fileIndex, fuzz)

lemma findFwdAux_eq_none {p : Line → Bool} :
    ∀ {L : List Line} {i : Nat}, (∀ l ∈ L, p l = false) →
      findFwdAux p L i = none := by
  intro L
  induction L with
  | nil => intro i _; rfl
  | cons l rest ih =>
    intro i hall
    unfold findFwdAux
    rw [hall l (List.mem_cons_self l rest)]
    exact ih fun x hx => hall x (List.mem_cons_of_mem l hx)

/-- C9 (Label already-seen exclusion): when an exact copy of a non-empty
label occurs in the already-scanned prefix, the forward label search is
skipped — cursor and fuzz unchanged — even if the label also occurs at or
after the cursor; the trimmed fallback is likewise skipped when a
trimmed-equal line occurs in the prefix. -/
theorem c9_labelExclusion :
    (∀ (fileLines : List Line) (defStr : List Char) (fileIndex fuzz : Nat),
        (∃ l ∈ fileLines.take fileIndex, l = defStr) →
        labelStep fileLines defStr fileIndex fuzz = (fileIndex, fuzz)) ∧
    (∀ (fileLines : List Line) (defStr : List Char) (fileIndex fuzz : Nat),
        (∀ l ∈ fileLines.take fileIndex, l ≠ defStr) →
        (∀ l ∈ fileLines.drop fileIndex, l ≠ defStr) →
        (∃ l ∈ fileLines.take fileIndex, trim l = trim defStr) →
        labelStep fileLines defStr fileIndex fuzz = (fileIndex, fuzz)) := by
  constructor
  · intro fileLines defStr fileIndex fuzz hex
    unfold labelStep
    rw [if_pos ?_]
    rcases hex with ⟨l, hl, rfl⟩
    exact List.any_eq_true.mpr ⟨l, hl, by simp⟩
  · intro fileLines defStr fileIndex fuzz hpre hsuf hextrim
    have hany : (fileLines.take fileIndex).any (fun s => s == defStr) = false := by
      rw [List.any_eq_false]
      intro l hl
      simpa using hpre l hl
    have hfwd : findFwd (fun s => s == defStr) fileLines fileIndex = none := by
      unfold findFwd
      refine findFwdAux_eq_none ?_
      intro l hl
      simpa using hsuf l hl
    have hanyTrim :
        (fileLines.take fileIndex).any (fun s => trim s == trim defStr) = true := by
      rcases hextrim with ⟨l, hl, he⟩
      exact List.any_eq_true.mpr ⟨l, hl, by simp [he]⟩
    unfold labelStep
    rw [hany, if_neg (by simp), hfwd, hanyTrim, if_pos rfl]

/-- C9 witness: a duplicated label line in the prefix, and a trimmed-equal
prefix line blocking the trimmed fallback. -/
theorem c9_labelExclusion_witness :
    labelStep [['L'], ['L']] ['L'] 1 0 = (1, 0) ∧
    labelStep [[' ', 'L'], ['x']] ['L'] 1 0 = (1, 0) := by
  constructor
  · exact c9_labelExclusion.1 [['L'], ['L']] ['L'] 1 0 ⟨['L'], by decide, rfl⟩
  · exact c9_labelExclusion.2 [[' ', 'L'], ['x']] ['L'] 1 0 (by decide) (by decide)
      ⟨[' ', 'L'], by decide, by decide⟩

/-- One delete/insert run of a section; origIndex is the 0-based offset of
the deletion within the section's context window, later rebased by the
window's resolved file position. -/
structure Chunk where
  origIndex : Nat
  delLines : List Line
  insLines : List Line
  deriving DecidableEq

inductive PMode where
  | keep
  | add
  | delete
  deriving DecidableEq

/-- Result of parsing one section: context window (kept + deleted lines),
chunks, the unconsumed patch lines, and the end-of-file flag. -/
structure PSection where
  context : List Line
  chunks : List Chunk
  remaining : List Line
  eof : Bool
  deriving DecidableEq

/-- The terminators that end a section without consuming the line. -/
def isSectionEnd (s0 : Line) : Bool :=
  ("@@".toList).isPrefixOf s0 || ("*** End of File".toList).isPrefixOf s0 ||
  ("*** End Patch".toList).isPrefixOf s0 ||
  ("*** Update File:".toList).isPrefixOf s0 ||
  ("*** Delete File:".toList).isPrefixOf s0 ||
  ("*** Add File:".toList).isPrefixOf s0

/-- The line loop of peekNextSection, recursing over the remaining patch
lines; returns the context buffer, the pending delete/insert accumulators,
the flushed chunks and the unconsumed lines.  An empty line is treated as a
single space; a chunk closes when the mode returns to keep with pending
content; the closing chunk's origIndex is (context so far) - (pending
deletes). -/
def peekLoop : List Line → PMode → List Line → List Line → List Line →
    List Chunk →
    Except DiffError (List Line × List Line × List Line × List Chunk × List Line)
  | [], _, old, delL, insL, chunks => .ok (old, delL, insL, chunks, [])
  | s0 :: rest, lastMode, old, delL, insL, chunks =>
    if isSectionEnd s0 then .ok (old, delL, insL, chunks, s0 :: rest)
    else if s0 = ("***".toList) then .ok (old, delL, insL, chunks, s0 :: rest)
    else if ("***".toList).isPrefixOf s0 then .error (.invalidLine s0)
    else
      match (if s0 = [] then [' '] else s0) with
      | '+' :: content => peekLoop rest .add old delL (insL ++ [content]) chunks
      | '-' :: content =>
          peekLoop rest .delete (old ++ [content]) (delL ++ [content]) insL chunks
      | ' ' :: content =>
          if lastMode ≠ .keep ∧ (insL ≠ [] ∨ delL ≠ []) then
            peekLoop rest .keep (old ++ [content]) [] []
              (chunks ++ [⟨old.length - delL.length, delL, insL⟩])
          else
            peekLoop rest .keep (old ++ [content]) delL insL chunks
      | _ => .error (.invalidLine s0)

/-- Ending of peekNextSection: consume a literal "*** End of File"
terminator; reject a section that consumed nothing (the remaining lines are
as long as the input, mirroring index === origIndex). -/
def peekFinish (lines old : List Line) (chunks2 : List Chunk)
    (remaining : List Line) : Except DiffError PSection :=
  match remaining with
  | r0 :: rrest =>
    if r0 = ("*** End of File".toList) then .ok ⟨old, chunks2, rrest, true⟩
    else if (r0 :: rrest).length = lines.length then
      .error (.nothingInSection r0)
    else .ok ⟨old, chunks2, r0 :: rrest, false⟩
  | [] =>
    if lines.length = 0 then .error (.nothingInSection [])
    else .ok ⟨old, chunks2, [], false⟩

/-- peekNextSection from the source, over the remaining patch lines instead
of an index: run the loop, flush the final pending chunk, finish. -/
def peekNextSection (lines : List Line) : Except DiffError PSection :=
  match peekLoop lines .keep [] [] [] [] with
  | .error e => .error e
  | .ok (old, delL, insL, chunks, remaining) =>
    peekFinish lines old
      (if insL ≠ [] ∨ delL ≠ [] then
        chunks ++ [⟨old.length - delL.length, delL, insL⟩]
      else chunks)
      remaining

/-- Rebase a section's chunks by the resolved window position. -/
def rebaseChunks (chs : List Chunk) (idx : Nat) : List Chunk :=
  chs.map fun ch => ⟨ch.origIndex + idx, ch.delLines, ch.insLines⟩

/-- The chunk-application phase of applyV4AUpdate: copy untouched lines,
verify each chunk's delete window verbatim, and splice in the insert
lines.  Out-of-order chunks and delete mismatches are fatal. -/
def applyChunks (fl : List Line) : List Chunk → Nat → List Line →
    Except DiffError (List Line)
  | [], origIndex, dest => .ok (dest ++ fl.drop origIndex)
  | ch :: rest, origIndex, dest =>
    if ch.origIndex < origIndex then
      .error (.nonMonotonic origIndex ch.origIndex)
    else
      let dest2 := dest ++ (fl.drop origIndex).take (ch.origIndex - origIndex)
      let actual := (fl.drop ch.origIndex).take ch.delLines.length
      if ch.delLines == actual then
        applyChunks fl rest (ch.origIndex + ch.delLines.length)
          (dest2 ++ ch.insLines)
      else .error (.conflict (ch.origIndex + 1) ch.delLines actual)

/-- Drop a single trailing empty line produced by a terminating newline. -/
def dropTrailingEmpty (ls : List Line) : List Line :=
  if ls.getLast? = some [] then ls.dropLast else ls

/-- The target file's lines: normalize line endings, split on newline. -/
def fileLinesOf (input : List Char) : List Line :=
  splitSep '\n' (normalizeLineEndings input)

/-- The diff's lines: normalize, split, drop one trailing empty line. -/
def patchLinesOf (diff : List Char) : List Line :=
  dropTrailingEmpty (splitSep '\n' (normalizeLineEndings diff))

/-- The section loop of applyV4AUpdate over the remaining patch lines: an
optional marker line ("@@ label", bare "@@", or — only at the very start —
none), the label search, section parse, context resolution, fuzz
accumulation and chunk rebasing.  The loop consumes at least one patch line
per iteration, so the fuel |patchLines| + 1 supplied by applyV4AUpdate is
never exhausted; `progressFailure` is unreachable. -/
def updateLoop (fileLines : List Line) :
    Nat → List Line → Bool → Nat → Nat → List Chunk →
    Except DiffError (List Chunk × Nat)
  | 0, _, _, _, _, _ => .error .progressFailure
  | _ + 1, [], _, _, fuzz, chunks => .ok (chunks, fuzz)
  | fuel + 1, line :: rest1, first, fileIndex, fuzz, chunks =>
    let step : Except DiffError (List Char × List Line) :=
      if ("@@ ".toList).isPrefixOf line then .ok (line.drop 3, rest1)
      else if line = ("@@".toList) then .ok ([], rest1)
      else if first then .ok ([], line :: rest1)
      else .error (.invalidSectionMarker line)
    match step with
    | .error e => .error e
    | .ok (defStr, restM) =>
      let fi1 :=
        if trim defStr ≠ [] then labelStep fileLines defStr fileIndex fuzz
        else (fileIndex, fuzz)
      match peekNextSection restM with
      | .error e => .error e
      | .ok sect =>
        match findContext fileLines sect.context fi1.1 sect.eof with
        | (none, _) =>
            .error (if sect.eof then .invalidEofContext fi1.1 sect.context
                    else .invalidContext fi1.1 sect.context)
        | (some idx, f) =>
            updateLoop fileLines fuel sect.remaining false
              (idx + sect.context.length) (fi1.2 + f)
              (chunks ++ rebaseChunks sect.chunks idx)

/-- Phase one of applyV4AUpdate: resolve every section of the diff against
the file, producing the global chunk list and the accumulated fuzz. -/
def resolvePhase (input diff : List Char) : Except DiffError (List Chunk × Nat) :=
  updateLoop (fileLinesOf input) ((patchLinesOf diff).length + 1)
    (patchLinesOf diff) true 0 0 []

/-- applyV4AUpdate from the source: resolve chunks, then apply them. -/
def applyV4AUpdate (input diff : List Char) :
    Except DiffError (List Char × Nat) :=
  match resolvePhase input diff with
  | .error e => .error e
  | .ok (chunks, fuzz) =>
    match applyChunks (fileLinesOf input) chunks 0 [] with
    | .error e => .error e
    | .ok dest => .ok (joinSep '\n' dest, fuzz)

/-- The line loop of applyV4ACreate: every line must begin with '+'; the
marker is stripped. -/
def buildCreate : List Line → Except DiffError (List Line)
  | [] => .ok []
  | l :: rest =>
    if l.head? = some '+' then
      match buildCreate rest with
      | .error e => .error e
      | .ok outs => .ok (l.drop 1 :: outs)
    else .error (.invalidCreateLine l)

/-- applyV4ACreate from the source. -/
def applyV4ACreate (diff : List Char) : Except DiffError (List Char) :=
  match buildCreate (patchLinesOf diff) with
  | .error e => .error e
  | .ok outs => .ok (joinSep '\n' outs)

inductive OpType where
  | create_file
  | update_file
  | delete_file
  deriving DecidableEq

/-- One apply_patch operation (diff and move_path optional). -/
structure Operation where
  typ : OpType
  opath : List Char
  diff : Option (List Char)
  move_path : Option (List Char)
  deriving DecidableEq

/-- Per-operation outcome: completed (status true) or failed, with the
error that the source would render into the output message. -/
structure OpResult where
  typ : OpType
  rpath : List Char
  status : Bool
  err : Option DiffError
  deriving DecidableEq

/-- The filesystem as seen through applyOperations: a map from validated
cwd-relative paths to file contents.  mkdir affects only directories and is
a no-op on this map; writeFileAtomic is modelled by its contract, an atomic
single-key update. -/
abbrev FS := List (List Char × List Char)

def lookupFS (fs : FS) (p : List Char) : Option (List Char) :=
  match fs.find? (fun e => e.1 == p) with
  | some e => some e.2
  | none => none

def setFS (fs : FS) (p v : List Char) : FS :=
  (p, v) :: fs.filter (fun e => e.1 != p)

def removeFS (fs : FS) (p : List Char) : FS := fs.filter (fun e => e.1 != p)

/-- One iteration of applyOperations' loop on a single operation: validate
the path (failure is recorded, not fatal), dispatch on the kind, catch any
engine error as a failed result.  All engine errors occur before any write,
so a failed operation leaves the map unchanged. -/
def applyOneOp (fs : FS) (op : Operation) : FS × OpResult :=
  match validateRelativePath op.opath with
  | .error e => (fs, ⟨op.typ, op.opath, false, some e⟩)
  | .ok rel =>
    match op.typ with
    | .create_file =>
      match op.diff with
      | none => (fs, ⟨.create_file, rel, false, some .missingDiff⟩)
      | some d =>
        if (lookupFS fs rel).isSome then
          (fs, ⟨.create_file, rel, false, some (.fileExists rel)⟩)
        else
          match applyV4ACreate d with
          | .error e => (fs, ⟨.create_file, rel, false, some e⟩)
          | .ok content =>
              (setFS fs rel content, ⟨.create_file, rel, true, none⟩)
    | .update_file =>
      match op.diff with
      | none => (fs, ⟨.update_file, rel, false, some .missingDiff⟩)
      | some d =>
        match lookupFS fs rel with
        | none => (fs, ⟨.update_file, rel, false, some (.fileNotFound rel)⟩)
        | some cur =>
          match applyV4AUpdate cur d with
          | .error e => (fs, ⟨.update_file, rel, false, some e⟩)
          | .ok (out, _fuzz) =>
            match op.move_path with
            | none => (setFS fs rel out, ⟨.update_file, rel, true, none⟩)
            | some mp =>
              match validateRelativePath mp with
              | .error e => (fs, ⟨.update_file, rel, false, some e⟩)
              | .ok relTo =>
                if (lookupFS fs relTo).isSome then
                  (fs, ⟨.update_file, rel, false, some (.fileExists relTo)⟩)
                else
                  (removeFS (setFS fs relTo out) rel,
                    ⟨.update_file, relTo, true, none⟩)
    | .delete_file =>
      match lookupFS fs rel with
      | none => (fs, ⟨.delete_file, rel, false, some (.fileNotFound rel)⟩)
      | some _ => (removeFS fs rel, ⟨.delete_file, rel, true, none⟩)

/-- A chunk list applies cleanly to fl from a cursor: monotone positions and
delete windows that match the file verbatim. -/
def chunksClean (fl : List Line) : Nat → List Chunk → Bool
  | _, [] => true
  | cursor, ch :: rest =>
    decide (cursor ≤ ch.origIndex) &&
    ((fl.drop ch.origIndex).take ch.delLines.length == ch.delLines) &&
    chunksClean fl (ch.origIndex + ch.delLines.length) rest

/-- Cursor position after walking a chunk list. -/
def chunkEnd : Nat → List Chunk → Nat
  | cursor, [] => cursor
  | _, ch :: rest => chunkEnd (ch.origIndex + ch.delLines.length) rest

lemma applyChunks_conflict {fl : List Line} :
    ∀ (pre : List Chunk) (cursor : Nat) (dest : List Line) (ch : Chunk)
      (post : List Chunk),
      chunksClean fl cursor pre = true →
      chunkEnd cursor pre ≤ ch.origIndex →
      (fl.drop ch.origIndex).take ch.delLines.length ≠ ch.delLines →
      applyChunks fl (pre ++ ch :: post) cursor dest =
        .error (.conflict (ch.origIndex + 1) ch.delLines
          ((fl.drop ch.origIndex).take ch.delLines.length)) := by
  intro pre
  induction pre with
  | nil =>
    intro cursor dest ch post _ hle hne
    have hle2 : cursor ≤ ch.origIndex := hle
    rw [List.nil_append]
    unfold applyChunks
    rw [if_neg (by omega)]
    rw [if_neg (by
      intro hbeq
      exact hne (beq_iff_eq.mp hbeq).symm)]
  | cons c pre ih =>
    intro cursor dest ch post hclean hle hne
    unfold chunksClean at hclean
    rw [Bool.and_eq_true, Bool.and_eq_true] at hclean
    obtain ⟨⟨h1, h2⟩, h3⟩ := hclean
    rw [List.cons_append]
    unfold applyChunks
    rw [if_neg (by
      have := of_decide_eq_true h1
      omega)]
    rw [if_pos (beq_iff_eq.mpr (beq_iff_eq.mp h2).symm)]
    exact ih (c.origIndex + c.delLines.length) _ ch post h3 hle hne

/-- C3 (Conflict detection with atomicity): when the file's lines at a
chunk's resolved position differ from the chunk's recorded delete lines
(all earlier chunks applying cleanly), applyV4AUpdate fails with the
conflict error that reports the expected and the actual lines; and an
update operation whose applyV4AUpdate fails leaves the filesystem map — in
particular the target file — unchanged, recording a failed result. -/
theorem c3_conflictAtomicity :
    (∀ (input diff : List Char) (pre : List Chunk) (ch : Chunk)
        (post : List Chunk) (fuzz : Nat),
        resolvePhase input diff = .ok (pre ++ ch :: post, fuzz) →
        chunksClean (fileLinesOf input) 0 pre = true →
        chunkEnd 0 pre ≤ ch.origIndex →
        ((fileLinesOf input).drop ch.origIndex).take ch.delLines.length ≠
          ch.delLines →
        applyV4AUpdate input diff =
          .error (.conflict (ch.origIndex + 1) ch.delLines
            (((fileLinesOf input).drop ch.origIndex).take
              ch.delLines.length))) ∧
    (∀ (fs : FS) (pth d : List Char) (mv : Option (List Char)) (e : DiffError)
        (rel cur : List Char),
        validateRelativePath pth = .ok rel →
        lookupFS fs rel = some cur →
        applyV4AUpdate cur d = .error e →
        applyOneOp fs ⟨.update_file, pth, some d, mv⟩ =
          (fs, ⟨.update_file, rel, false, some e⟩)) := by
  constructor
  · intro input diff pre ch post fuzz hres hclean hle hne
    unfold applyV4AUpdate
    rw [hres]
    dsimp only
    rw [applyChunks_conflict pre 0 [] ch post hclean hle hne]
  · intro fs pth d mv e rel cur hval hlook happ
    simp only [applyOneOp, hval, hlook, happ]

/-- C3 witness: a delete line whose trailing whitespace differs from the
file conflicts, both at engine level and through a single update
operation. -/
theorem c3_conflictAtomicity_witness :
    applyV4AUpdate ("a ".toList) ("@@\n-a\n+b".toList) =
      .error (.conflict 1 [['a']] [['a', ' ']]) ∧
    applyOneOp [("f".toList, "a ".toList)]
        ⟨.update_file, "f".toList, some ("@@\n-a\n+b".toList), none⟩ =
      ([("f".toList, "a ".toList)],
        ⟨.update_file, "f".toList, false,
          some (.conflict 1 [['a']] [['a', ' ']])⟩) := by
  constructor
  · exact (c3_conflictAtomicity.1 ("a ".toList) ("@@\n-a\n+b".toList) []
      ⟨0, [['a']], [['b']]⟩ [] 1 (by decide) (by decide) (by decide)
      (by decide)).trans (by decide)
  · exact c3_conflictAtomicity.2 [("f".toList, "a ".toList)] ("f".toList)
      ("@@\n-a\n+b".toList) none (.conflict 1 [['a']] [['a', ' ']])
      ("f".toList) ("a ".toList) (by decide) (by decide) (by decide)

lemma buildCreate_error :
    ∀ {ls : List Line}, (∃ l ∈ ls, l.head? ≠ some '+') →
      ∃ bad, buildCreate ls = .error (.invalidCreateLine bad) := by
  intro ls
  induction ls with
  | nil => intro h; rcases h with ⟨l, hl, _⟩; cases hl
  | cons l rest ih =>
    intro h
    by_cases hc : l.head? = some '+'
    · rcases h with ⟨x, hx, hxh⟩
      rcases List.mem_cons.mp hx with rfl | hx2
      · exact absurd hc hxh
      · rcases ih ⟨x, hx2, hxh⟩ with ⟨bad, hbad⟩
        refine ⟨bad, ?_⟩
        unfold buildCreate
        rw [if_pos hc, hbad]
    · refine ⟨l, ?_⟩
      unfold buildCreate
      rw [if_neg hc]

lemma buildCreate_ok :
    ∀ {ls : List Line}, (∀ l ∈ ls, l.head? = some '+') →
      buildCreate ls = .ok (ls.map (fun l => l.drop 1)) := by
  intro ls
  induction ls with
  | nil => intro _; rfl
  | cons l rest ih =>
    intro h
    unfold buildCreate
    rw [if_pos (h l (List.mem_cons_self l rest)),
      ih (fun x hx => h x (List.mem_cons_of_mem l hx))]
    rfl

/-- C8 (Create strictness): a create diff with a line (after dropping a
single trailing empty line) not starting with '+' makes applyV4ACreate fail
with the invalid-create-line format error, and the create operation leaves
the filesystem map unchanged with a failed result; otherwise the result is
the lines with their '+' markers stripped, joined by newlines. -/
theorem c8_createStrict :
    (∀ diff : List Char, (∃ l ∈ patchLinesOf diff, l.head? ≠ some '+') →
        (∃ bad, applyV4ACreate diff = .error (.invalidCreateLine bad)) ∧
        (∀ (fs : FS) (pth : List Char),
          (applyOneOp fs ⟨.create_file, pth, some diff, none⟩).1 = fs ∧
          (applyOneOp fs ⟨.create_file, pth, some diff, none⟩).2.status =
            false)) ∧
    (∀ diff : List Char, (∀ l ∈ patchLinesOf diff, l.head? = some '+') →
        applyV4ACreate diff =
          .ok (joinSep '\n' ((patchLinesOf diff).map (fun l => l.drop 1)))) := by
  constructor
  · intro diff hex
    rcases buildCreate_error hex with ⟨bad, hbad⟩
    have herr : applyV4ACreate diff = .error (.invalidCreateLine bad) := by
      unfold applyV4ACreate
      rw [hbad]
    refine ⟨⟨bad, herr⟩, ?_⟩
    intro fs pth
    cases hval : validateRelativePath pth with
    | error e => simp [applyOneOp, hval]
    | ok rel =>
      by_cases hlk : (lookupFS fs rel).isSome
      · simp [applyOneOp, hval, hlk]
      · simp [applyOneOp, hval, hlk, herr]
  · intro diff hall
    unfold applyV4ACreate
    rw [buildCreate_ok hall]

/-- C8 witness: a context line in create mode fails and writes nothing; an
all-plus diff strips markers and joins. -/
theorem c8_createStrict_witness :
    (∃ bad, applyV4ACreate ("+a\n b".toList) =
      .error (.invalidCreateLine bad)) ∧
    (applyOneOp [] ⟨.create_file, "f".toList, some ("+a\n b".toList),
        none⟩).1 = [] ∧
    applyV4ACreate ("+x\n+y\n".toList) = .ok ("x\ny".toList) := by
  have h1 := c8_createStrict.1 ("+a\n b".toList)
    ⟨[' ', 'b'], by decide, by decide⟩
  have h2 := c8_createStrict.2 ("+x\n+y\n".toList) (by decide)
  exact ⟨h1.1, (h1.2 [] ("f".toList)).1, h2.trans (by decide)⟩

lemma noCR_replCR (l : List Char) : '\r' ∉ replCR l := by
  unfold replCR
  intro h
  rcases List.mem_map.mp h with ⟨c, _, hc⟩
  by_cases h2 : c = '\r' <;> simp [h2] at hc

lemma noCR_normalize (t : List Char) : '\r' ∉ normalizeLineEndings t :=
  noCR_replCR _

lemma mem_splitSep {sep : Char} :
    ∀ {t l : List Char} {c : Char}, l ∈ splitSep sep t → c ∈ l → c ∈ t := by
  intro t
  induction t with
  | nil =>
    intro l c hl hc
    simp only [splitSep, List.mem_singleton] at hl
    subst hl
    cases hc
  | cons a rest ih =>
    intro l c hl hc
    unfold splitSep at hl
    by_cases ha : a = sep
    · rw [if_pos ha] at hl
      rcases List.mem_cons.mp hl with rfl | h2
      · cases hc
      · exact List.mem_cons_of_mem a (ih h2 hc)
    · rw [if_neg ha] at hl
      rcases hs : splitSep sep rest with _ | ⟨l0, ls⟩
      · rw [hs] at hl
        simp only [List.mem_singleton] at hl
        subst hl
        simp only [List.mem_singleton] at hc
        subst hc
        exact List.mem_cons_self _ _
      · rw [hs] at hl
        rcases List.mem_cons.mp hl with rfl | h2
        · rcases List.mem_cons.mp hc with rfl | h3
          · exact List.mem_cons_self _ _
          · refine List.mem_cons_of_mem a (ih ?_ h3)
            rw [hs]
            exact List.mem_cons_self l0 ls
        · refine List.mem_cons_of_mem a (ih ?_ hc)
          rw [hs]
          exact List.mem_cons_of_mem l0 h2

lemma joinSep_cons_cons (sep : Char) (l l2 : List Char)
    (rest : List (List Char)) :
    joinSep sep (l :: l2 :: rest) = l ++ sep :: joinSep sep (l2 :: rest) := rfl

lemma mem_joinSep {sep : Char} :
    ∀ {ls : List (List Char)} {c : Char},
      c ∈ joinSep sep ls → c = sep ∨ ∃ l ∈ ls, c ∈ l := by
  intro ls
  induction ls with
  | nil => intro c h; cases h
  | cons l rest ih =>
    intro c h
    cases rest with
    | nil =>
      right
      exact ⟨l, List.mem_singleton.mpr rfl, h⟩
    | cons l2 rest2 =>
      rw [joinSep_cons_cons] at h
      rcases List.mem_append.mp h with h1 | h1
      · exact Or.inr ⟨l, List.mem_cons_self l _, h1⟩
      · rcases List.mem_cons.mp h1 with rfl | h2
        · exact Or.inl rfl
        · rcases ih h2 with h3 | ⟨x, hx, hcx⟩
          · exact Or.inl h3
          · exact Or.inr ⟨x, List.mem_cons_of_mem l hx, hcx⟩

lemma mem_dropTrailingEmpty {ls : List Line} {l : Line}
    (h : l ∈ dropTrailingEmpty ls) : l ∈ ls := by
  unfold dropTrailingEmpty at h
  split at h
  · exact (List.dropLast_sublist ls).subset h
  · exact h

lemma noCR_fileLines {input : List Char} {l : Line}
    (h : l ∈ fileLinesOf input) : '\r' ∉ l :=
  fun hc => noCR_normalize input (mem_splitSep h hc)

lemma noCR_patchLines {diff : List Char} {l : Line}
    (h : l ∈ patchLinesOf diff) : '\r' ∉ l :=
  fun hc => noCR_normalize diff (mem_splitSep (mem_dropTrailingEmpty h) hc)

lemma peekLoop_insNoCR :
    ∀ (rest : List Line) (m : PMode) (old delL insL : List Line)
      (chunks : List Chunk)
      (out : List Line × List Line × List Line × List Chunk × List Line),
      peekLoop rest m old delL insL chunks = .ok out →
      (∀ s ∈ rest, '\r' ∉ s) →
      (∀ l ∈ insL, '\r' ∉ l) →
      (∀ ch ∈ chunks, ∀ l ∈ ch.insLines, '\r' ∉ l) →
      (∀ l ∈ out.2.2.1, '\r' ∉ l) ∧
        (∀ ch ∈ out.2.2.2.1, ∀ l ∈ ch.insLines, '\r' ∉ l) := by
  intro rest
  induction rest with
  | nil =>
    intro m old delL insL chunks out h _ hins hch
    cases h
    exact ⟨hins, hch⟩
  | cons s0 rest1 ih =>
    intro m old delL insL chunks out h hrest hins hch
    have hs0 : '\r' ∉ s0 := hrest s0 (List.mem_cons_self s0 rest1)
    have hrest1 : ∀ s ∈ rest1, '\r' ∉ s :=
      fun s hs => hrest s (List.mem_cons_of_mem s0 hs)
    have hcontent : ∀ (m : Char) (c : List Char),
        (if s0 = [] then [' '] else s0) = m :: c → '\r' ∉ c := by
      intro m c hh
      by_cases hz : s0 = []
      · rw [if_pos hz] at hh
        have hc0 : c = [] := by
          have := congrArg List.tail hh
          simpa using this.symm
        rw [hc0]
        intro hc
        cases hc
      · rw [if_neg hz] at hh
        rw [hh] at hs0
        intro hc
        exact hs0 (List.mem_cons_of_mem _ hc)
    unfold peekLoop at h
    split at h
    · cases h; exact ⟨hins, hch⟩
    · split at h
      · cases h; exact ⟨hins, hch⟩
      · split at h
        · cases h
        · split at h
          · rename_i content heq
            refine ih _ _ _ _ _ _ h hrest1 ?_ hch
            intro l hl
            rcases List.mem_append.mp hl with h1 | h1
            · exact hins l h1
            · rw [List.mem_singleton.mp h1]
              exact hcontent _ content heq
          · rename_i content heq
            exact ih _ _ _ _ _ _ h hrest1 hins hch
          · rename_i content heq
            split at h
            · refine ih _ _ _ _ _ _ h hrest1 (by intro l hl; cases hl) ?_
              intro ch2 hch2 l hl
              rcases List.mem_append.mp hch2 with h1 | h1
              · exact hch ch2 h1 l hl
              · rw [List.mem_singleton.mp h1] at hl
                exact hins l hl
            · exact ih _ _ _ _ _ _ h hrest1 hins hch
          · cases h

lemma peekLoop_rem_suffix :
    ∀ (rest : List Line) (m : PMode) (old delL insL : List Line)
      (chunks : List Chunk)
      (out : List Line × List Line × List Line × List Chunk × List Line),
      peekLoop rest m old delL insL chunks = .ok out →
      out.2.2.2.2 <:+ rest := by
  intro rest
  induction rest with
  | nil =>
    intro m old delL insL chunks out h
    cases h
    exact List.suffix_refl []
  | cons s0 rest1 ih =>
    intro m old delL insL chunks out h
    unfold peekLoop at h
    split at h
    · cases h; exact List.suffix_refl _
    · split at h
      · cases h; exact List.suffix_refl _
      · split at h
        · cases h
        · split at h
          · exact (ih _ _ _ _ _ _ h).trans (List.suffix_cons s0 rest1)
          · exact (ih _ _ _ _ _ _ h).trans (List.suffix_cons s0 rest1)
          · split at h
            · exact (ih _ _ _ _ _ _ h).trans (List.suffix_cons s0 rest1)
            · exact (ih _ _ _ _ _ _ h).trans (List.suffix_cons s0 rest1)
          · cases h

lemma peekFinish_ok {lines old : List Line} {chunks2 : List Chunk}
    {remaining : List Line} {sect : PSection}
    (h : peekFinish lines old chunks2 remaining = .ok sect) :
    sect.context = old ∧ sect.chunks = chunks2 ∧
      ((sect.remaining = remaining ∧ sect.eof = false ∧
          remaining.length ≠ lines.length) ∨
        (∃ rrest, remaining = ("*** End of File".toList) :: rrest ∧
          sect.remaining = rrest ∧ sect.eof = true)) := by
  unfold peekFinish at h
  rcases remaining with _ | ⟨r0, rrest⟩
  all_goals dsimp only at h
  · rcases hz : lines.length with _ | n
    · rw [if_pos hz] at h; cases h
    · rw [if_neg (by omega)] at h
      cases h
      exact ⟨rfl, rfl, Or.inl ⟨rfl, rfl, by simp [hz]⟩⟩
  · by_cases hr0 : r0 = ("*** End of File".toList)
    · rw [if_pos hr0] at h
      cases h
      exact ⟨rfl, rfl, Or.inr ⟨rrest, by rw [hr0], rfl, rfl⟩⟩
    · rw [if_neg hr0] at h
      by_cases hlen : (r0 :: rrest).length = lines.length
      · rw [if_pos hlen] at h; cases h
      · rw [if_neg hlen] at h
        cases h
        exact ⟨rfl, rfl, Or.inl ⟨rfl, rfl, hlen⟩⟩

lemma peekNextSection_insNoCR {lines : List Line} {sect : PSection}
    (h : peekNextSection lines = .ok sect) (hl : ∀ s ∈ lines, '\r' ∉ s) :
    ∀ ch ∈ sect.chunks, ∀ l ∈ ch.insLines, '\r' ∉ l := by
  unfold peekNextSection at h
  rcases hp : peekLoop lines .keep [] [] [] [] with _ | ⟨old, delL, insL, chunks, remaining⟩
  · rw [hp] at h; cases h
  · rw [hp] at h
    have hbase := peekLoop_insNoCR lines .keep [] [] [] []
      (old, delL, insL, chunks, remaining) hp hl
      (by intro l hl2; cases hl2) (by intro ch hch; cases hch)
    have hchunks2 : ∀ ch ∈ (if insL ≠ [] ∨ delL ≠ [] then
        chunks ++ [⟨old.length - delL.length, delL, insL⟩] else chunks),
        ∀ l ∈ ch.insLines, '\r' ∉ l := by
      split
      · intro ch hch l hl2
        rcases List.mem_append.mp hch with h1 | h1
        · exact hbase.2 ch h1 l hl2
        · rw [List.mem_singleton.mp h1] at hl2
          exact hbase.1 l hl2
      · exact hbase.2
    obtain ⟨_, hchk, _⟩ := peekFinish_ok h
    rw [hchk]
    exact hchunks2

lemma peekNextSection_remaining_lt {lines : List Line} {sect : PSection}
    (h : peekNextSection lines = .ok sect) :
    sect.remaining.length < lines.length ∧ sect.remaining <:+ lines := by
  unfold peekNextSection at h
  rcases hp : peekLoop lines .keep [] [] [] [] with _ | ⟨old, delL, insL, chunks, remaining⟩
  · rw [hp] at h; cases h
  · rw [hp] at h
    have hsuf : remaining <:+ lines :=
      peekLoop_rem_suffix lines .keep [] [] [] []
        (old, delL, insL, chunks, remaining) hp
    have hlen : remaining.length ≤ lines.length := hsuf.length_le
    obtain ⟨_, _, hcase⟩ := peekFinish_ok h
    rcases hcase with ⟨hrem, _, hne⟩ | ⟨rrest, hmark, hrem, _⟩
    · rw [hrem]
      exact ⟨Nat.lt_of_le_of_ne hlen hne, hsuf⟩
    · rw [hrem]
      rw [hmark] at hsuf hlen
      simp only [List.length_cons] at hlen
      exact ⟨by omega, (List.suffix_cons _ rrest).trans hsuf⟩

lemma updateLoop_insNoCR (fl : List Line) :
    ∀ (fuel : Nat) (rest : List Line) (first : Bool) (fi fz : Nat)
      (acc chunks : List Chunk) (f : Nat),
      updateLoop fl fuel rest first fi fz acc = .ok (chunks, f) →
      (∀ s ∈ rest, '\r' ∉ s) →
      (∀ ch ∈ acc, ∀ l ∈ ch.insLines, '\r' ∉ l) →
      ∀ ch ∈ chunks, ∀ l ∈ ch.insLines, '\r' ∉ l := by
  intro fuel
  induction fuel with
  | zero => intro rest first fi fz acc chunks f h; cases h
  | succ fuel ih =>
    intro rest first fi fz acc chunks f h hrest hacc
    cases rest with
    | nil =>
      cases h
      exact hacc
    | cons line rest1 =>
      have hrest1 : ∀ s ∈ rest1, '\r' ∉ s :=
        fun s hs => hrest s (List.mem_cons_of_mem line hs)
      unfold updateLoop at h
      dsimp only at h
      split at h
      · cases h
      · rename_i defStr restM hstep
        have hrestM : ∀ s ∈ restM, '\r' ∉ s := by
          split at hstep
          · cases hstep; exact hrest1
          · split at hstep
            · cases hstep; exact hrest1
            · split at hstep
              · cases hstep; exact hrest
              · cases hstep
        rcases hp : peekNextSection restM with _ | sect
        · rw [hp] at h; cases h
        · rw [hp] at h
          dsimp only at h
          rcases hf : findContext fl sect.context
              (if trim defStr ≠ [] then labelStep fl defStr fi fz
               else (fi, fz)).1 sect.eof with ⟨oi, ff⟩
          rw [hf] at h
          cases oi with
          | none => cases h
          | some idx =>
            refine ih _ _ _ _ _ _ _ h ?_ ?_
            · intro s hs
              exact hrestM s ((peekNextSection_remaining_lt hp).2.subset hs)
            · intro ch hch l hl
              rcases List.mem_append.mp hch with h1 | h1
              · exact hacc ch h1 l hl
              · rcases List.mem_map.mp h1 with ⟨ch0, hch0, rfl⟩
                exact peekNextSection_insNoCR hp hrestM ch0 hch0 l hl

lemma applyChunks_mem {fl : List Line} :
    ∀ (chunks : List Chunk) (cursor : Nat) (dest res : List Line),
      applyChunks fl chunks cursor dest = .ok res →
      ∀ l ∈ res, l ∈ dest ∨ l ∈ fl ∨ ∃ ch ∈ chunks, l ∈ ch.insLines := by
  intro chunks
  induction chunks with
  | nil =>
    intro cursor dest res h l hl
    cases h
    rcases List.mem_append.mp hl with h1 | h1
    · exact Or.inl h1
    · exact Or.inr (Or.inl ((List.drop_sublist cursor fl).subset h1))
  | cons ch rest ih =>
    intro cursor dest res h l hl
    unfold applyChunks at h
    split at h
    · cases h
    · dsimp only at h
      split at h
      · rcases ih _ _ _ h l hl with h1 | h1 | ⟨ch2, hch2, h2⟩
        · rcases List.mem_append.mp h1 with h3 | h3
          · rcases List.mem_append.mp h3 with h4 | h4
            · exact Or.inl h4
            · exact Or.inr (Or.inl
                (((List.take_sublist _ _).trans (List.drop_sublist _ _)).subset h4))
          · exact Or.inr (Or.inr ⟨ch, List.mem_cons_self ch rest, h3⟩)
        · exact Or.inr (Or.inl h1)
        · exact Or.inr (Or.inr ⟨ch2, List.mem_cons_of_mem ch hch2, h2⟩)
      · cases h

lemma buildCreate_mem :
    ∀ {ls outs : List Line}, buildCreate ls = .ok outs →
      ∀ l ∈ outs, ∃ l0 ∈ ls, l = l0.drop 1 := by
  intro ls
  induction ls with
  | nil =>
    intro outs h l hl
    cases h
    cases hl
  | cons x rest ih =>
    intro outs h l hl
    unfold buildCreate at h
    split at h
    · rcases hb : buildCreate rest with _ | outs2
      · rw [hb] at h; cases h
      · rw [hb] at h
        cases h
        rcases List.mem_cons.mp hl with rfl | h2
        · exact ⟨x, List.mem_cons_self x rest, rfl⟩
        · rcases ih hb l h2 with ⟨l0, hl0, he⟩
          exact ⟨l0, List.mem_cons_of_mem x hl0, he⟩
    · cases h

/-- C10 (Implicit line-ending normalization): a successful applyV4AUpdate
returns text free of carriage returns — every CRLF or lone CR of the input,
including in regions no chunk touches, has been rewritten — and a
successful applyV4ACreate likewise returns CR-free text. -/
theorem c10_noCarriageReturn :
    (∀ (input diff out : List Char) (fuzz : Nat),
        applyV4AUpdate input diff = .ok (out, fuzz) → '\r' ∉ out) ∧
    (∀ (diff out : List Char),
        applyV4ACreate diff = .ok out → '\r' ∉ out) := by
  constructor
  · intro input diff out fuzz h hcr
    unfold applyV4AUpdate at h
    rcases hres : resolvePhase input diff with _ | ⟨chunks, fz⟩
    · rw [hres] at h; cases h
    · rw [hres] at h
      dsimp only at h
      rcases hap : applyChunks (fileLinesOf input) chunks 0 [] with _ | dest
      · rw [hap] at h; cases h
      · rw [hap] at h
        cases h
        rcases mem_joinSep hcr with h1 | ⟨l, hl, hcl⟩
        · cases h1
        · rcases applyChunks_mem chunks 0 [] dest hap l hl with h2 | h2 | ⟨ch, hch, h2⟩
          · cases h2
          · exact noCR_fileLines h2 hcl
          · exact updateLoop_insNoCR (fileLinesOf input) _ _ _ _ _ _ _ _ hres
              (fun s hs => noCR_patchLines hs)
              (by intro c hc; cases hc) ch hch l h2 hcl
  · intro diff out h hcr
    unfold applyV4ACreate at h
    rcases hb : buildCreate (patchLinesOf diff) with _ | outs
    · rw [hb] at h; cases h
    · rw [hb] at h
      cases h
      rcases mem_joinSep hcr with h1 | ⟨l, hl, hcl⟩
      · cases h1
      · rcases buildCreate_mem hb l hl with ⟨l0, hl0, rfl⟩
        exact noCR_patchLines hl0 ((List.drop_sublist 1 l0).subset hcl)

/-- C10 witness: an input with CRLF and a lone untouched region, and a
create diff with CRLF, both produce CR-free text. -/
theorem c10_noCarriageReturn_witness :
    '\r' ∉ ("x\ny".toList) ∧ '\r' ∉ ("a\nb".toList) := by
  constructor
  · exact c10_noCarriageReturn.1 ("x\r\ny".toList) ("".toList)
      ("x\ny".toList) 0 (by decide)
  · exact c10_noCarriageReturn.2 ("+a\r\n+b".toList) ("a\nb".toList)
      (by decide)

/-- The text described by a chunk list over base lines: copy up to each
chunk's position, emit its insert lines, skip its delete window. -/
def spliceChunks (base : List Line) : List Chunk → Nat → List Line
  | [], cursor => base.drop cursor
  | ch :: rest, cursor =>
    (base.drop cursor).take (ch.origIndex - cursor) ++ ch.insLines ++
      spliceChunks base rest (ch.origIndex + ch.delLines.length)

/-- Parser invariant: each chunk's delete lines are the slice of the context
window at its origIndex, chunks are ordered, and the final cursor stays at
or below `bound`. -/
def ChunksWFTo (ctx : List Line) : Nat → Nat → List Chunk → Prop
  | cursor, bound, [] => cursor ≤ bound
  | cursor, bound, ch :: rest =>
    cursor ≤ ch.origIndex ∧
    ch.origIndex + ch.delLines.length ≤ ctx.length ∧
    (ctx.drop ch.origIndex).take ch.delLines.length = ch.delLines ∧
    ChunksWFTo ctx (ch.origIndex + ch.delLines.length) bound rest

lemma slice_append {ctx ext : List Line} {oi d : Nat}
    (h : oi + d ≤ ctx.length) :
    ((ctx ++ ext).drop oi).take d = (ctx.drop oi).take d := by
  rw [List.drop_append_eq_append_drop]
  rw [List.take_append_of_le_length (by simp only [List.length_drop]; omega)]

lemma ChunksWFTo_mono_bound {ctx : List Line} :
    ∀ {chs : List Chunk} {cursor b b' : Nat}, b ≤ b' →
      ChunksWFTo ctx cursor b chs → ChunksWFTo ctx cursor b' chs := by
  intro chs
  induction chs with
  | nil => intro cursor b b' hb h; exact Nat.le_trans h hb
  | cons ch rest ih =>
    intro cursor b b' hb h
    exact ⟨h.1, h.2.1, h.2.2.1, ih hb h.2.2.2⟩

lemma ChunksWFTo_append_ctx {ctx ext : List Line} :
    ∀ {chs : List Chunk} {cursor bound : Nat},
      ChunksWFTo ctx cursor bound chs →
      ChunksWFTo (ctx ++ ext) cursor bound chs := by
  intro chs
  induction chs with
  | nil => intro cursor bound h; exact h
  | cons ch rest ih =>
    intro cursor bound h
    have h21 := h.2.1
    refine ⟨h.1, ?_, ?_, ih h.2.2.2⟩
    · rw [List.length_append]; omega
    · rw [slice_append h21]; exact h.2.2.1

lemma ChunksWFTo_snoc {ctx : List Line} (nc : Chunk) :
    ∀ {chs : List Chunk} {cursor b : Nat},
      ChunksWFTo ctx cursor b chs →
      b ≤ nc.origIndex →
      nc.origIndex + nc.delLines.length ≤ ctx.length →
      (ctx.drop nc.origIndex).take nc.delLines.length = nc.delLines →
      ChunksWFTo ctx cursor (nc.origIndex + nc.delLines.length)
        (chs ++ [nc]) := by
  intro chs
  induction chs with
  | nil =>
    intro cursor b h h1 h2 h3
    exact ⟨Nat.le_trans h h1, h2, h3, Nat.le_refl _⟩
  | cons ch rest ih =>
    intro cursor b h h1 h2 h3
    exact ⟨h.1, h.2.1, h.2.2.1, ih h.2.2.2 h1 h2 h3⟩

lemma suffix_slice {pre delL : List Line} :
    (((pre ++ delL).drop ((pre ++ delL).length - delL.length)).take
      delL.length) = delL := by
  have hplen : (pre ++ delL).length - delL.length = pre.length := by
    rw [List.length_append]; omega
  rw [hplen, List.drop_left, List.take_length]

lemma peekLoop_wf :
    ∀ (rest : List Line) (m : PMode) (old delL insL : List Line)
      (chunks : List Chunk)
      (out : List Line × List Line × List Line × List Chunk × List Line),
      peekLoop rest m old delL insL chunks = .ok out →
      (m = .keep → delL = []) →
      (∃ pre, old = pre ++ delL) →
      ChunksWFTo old 0 (old.length - delL.length) chunks →
      (∃ pre, out.1 = pre ++ out.2.1) ∧
        ChunksWFTo out.1 0 (out.1.length - out.2.1.length) out.2.2.2.1 := by
  intro rest
  induction rest with
  | nil =>
    intro m old delL insL chunks out h hkeep hsuf hwf
    cases h
    exact ⟨hsuf, hwf⟩
  | cons s0 rest1 ih =>
    intro m old delL insL chunks out h hkeep hsuf hwf
    unfold peekLoop at h
    split at h
    · cases h; exact ⟨hsuf, hwf⟩
    · split at h
      · cases h; exact ⟨hsuf, hwf⟩
      · split at h
        · cases h
        · split at h
          · -- add line: only insL changes
            exact ih _ _ _ _ _ _ h (by intro hk; cases hk) hsuf hwf
          · -- delete line: old and delL both get content appended
            rename_i content heq
            refine ih _ _ _ _ _ _ h (by intro hk; cases hk) ?_ ?_
            · rcases hsuf with ⟨pre, hpre⟩
              exact ⟨pre, by rw [hpre, List.append_assoc]⟩
            · have hlen : (old ++ [content]).length - (delL ++ [content]).length
                  = old.length - delL.length := by
                simp only [List.length_append, List.length_cons,
                  List.length_nil]
                omega
              rw [hlen]
              exact ChunksWFTo_append_ctx hwf
          · -- keep line, flushing or not
            rename_i content heq
            split at h
            · rename_i hflush
              rcases hsuf with ⟨pre, hpre⟩
              subst hpre
              have hlenp : delL.length ≤ (pre ++ delL).length := by
                rw [List.length_append]; omega
              have hsnoc :=
                ChunksWFTo_snoc
                  ⟨(pre ++ delL).length - delL.length, delL, insL⟩ hwf
                  (Nat.le_refl _) (by dsimp only; omega)
                  (by dsimp only; exact suffix_slice)
              have hend : ((pre ++ delL).length - delL.length) + delL.length
                  = (pre ++ delL).length := by omega
              rw [hend] at hsnoc
              refine ih _ _ _ _ _ _ h (fun _ => rfl)
                ⟨(pre ++ delL) ++ [content], by simp⟩ ?_
              have hb : ((pre ++ delL) ++ [content]).length -
                  ([] : List Line).length = (pre ++ delL).length + 1 := by
                simp only [List.length_append, List.length_cons,
                  List.length_nil]
                omega
              rw [hb]
              exact ChunksWFTo_append_ctx
                (ChunksWFTo_mono_bound (Nat.le_succ _) hsnoc)
            · rename_i hflush
              have hdel : delL = [] := by
                by_cases hm : m = .keep
                · exact hkeep hm
                · by_cases hins : insL = []
                  · by_cases hdl : delL = []
                    · exact hdl
                    · exact absurd ⟨hm, Or.inr hdl⟩ hflush
                  · exact absurd ⟨hm, Or.inl hins⟩ hflush
              subst hdel
              have hwf2 : ChunksWFTo old 0 old.length chunks := by
                simpa using hwf
              refine ih _ _ _ _ _ _ h (fun _ => rfl)
                ⟨old ++ [content], by simp⟩ ?_
              have hb : (old ++ [content]).length - ([] : List Line).length
                  = old.length + 1 := by simp
              rw [hb]
              exact ChunksWFTo_append_ctx
                (ChunksWFTo_mono_bound (Nat.le_succ _) hwf2)
          · cases h

lemma peekNextSection_wf {lines : List Line} {sect : PSection}
    (h : peekNextSection lines = .ok sect) :
    ChunksWFTo sect.context 0 sect.context.length sect.chunks := by
  unfold peekNextSection at h
  rcases hp : peekLoop lines .keep [] [] [] [] with _ | ⟨old, delL, insL, chunks, remaining⟩
  · rw [hp] at h; cases h
  · rw [hp] at h
    have hbase := peekLoop_wf lines .keep [] [] [] []
      (old, delL, insL, chunks, remaining) hp (fun _ => rfl) ⟨[], rfl⟩
      (by simp only [List.length_nil]; exact Nat.le_refl 0)
    dsimp only at hbase
    obtain ⟨hctx, hchk, _⟩ := peekFinish_ok h
    rw [hctx, hchk]
    rcases hbase with ⟨⟨pre, hpre⟩, hwf⟩
    subst hpre
    split
    · rename_i hflush
      have hsnoc :=
        ChunksWFTo_snoc
          ⟨(pre ++ delL).length - delL.length, delL, insL⟩ hwf
          (Nat.le_refl _)
          (by dsimp only; rw [List.length_append]; omega)
          (by dsimp only; exact suffix_slice)
      have hend : ((pre ++ delL).length - delL.length) + delL.length
          = (pre ++ delL).length := by
        rw [List.length_append]; omega
      rw [hend] at hsnoc
      exact hsnoc
    · refine ChunksWFTo_mono_bound ?_ hwf
      omega

lemma window_slice {fl ctx : List Line} {p oi d : Nat}
    (hwin : (fl.drop p).take ctx.length = ctx) (hbound : oi + d ≤ ctx.length) :
    (fl.drop (p + oi)).take d = (ctx.drop oi).take d := by
  have h1 : ctx.drop oi = ((fl.drop p).take ctx.length).drop oi := by rw [hwin]
  rw [h1, List.drop_take]
  rw [List.take_take]
  rw [Nat.min_def, if_pos (by omega)]
  rw [← List.drop_drop]

lemma wf_del_of_window {fl ctx : List Line} {p : Nat}
    (hwin : (fl.drop p).take ctx.length = ctx) :
    ∀ {chs : List Chunk} {cursor bound : Nat},
      ChunksWFTo ctx cursor bound chs →
      ∀ ch ∈ chs,
        (fl.drop (p + ch.origIndex)).take ch.delLines.length = ch.delLines := by
  intro chs
  induction chs with
  | nil => intro cursor bound _ ch hch; cases hch
  | cons c rest ih =>
    intro cursor bound h ch hch
    rcases List.mem_cons.mp hch with rfl | hch2
    · rw [window_slice hwin h.2.1]
      exact h.2.2.1
    · exact ih h.2.2.2 ch hch2

lemma chunksClean_rebase {fl ctx : List Line} {p : Nat} :
    ∀ (chs : List Chunk) (cursor bound c0 : Nat),
      ChunksWFTo ctx cursor bound chs →
      (∀ ch ∈ chs,
        (fl.drop (p + ch.origIndex)).take ch.delLines.length = ch.delLines) →
      c0 ≤ p + cursor →
      chunksClean fl c0 (rebaseChunks chs p) = true ∧
        chunkEnd c0 (rebaseChunks chs p) ≤ p + bound := by
  intro chs
  induction chs with
  | nil =>
    intro cursor bound c0 h _ hc0
    have h' : cursor ≤ bound := h
    exact ⟨rfl, by
      unfold rebaseChunks
      simp only [List.map_nil]
      unfold chunkEnd
      omega⟩
  | cons ch rest ih =>
    intro cursor bound c0 h hdel hc0
    obtain ⟨h1, h2, h3, h4⟩ := h
    have hd := hdel ch (List.mem_cons_self ch rest)
    have hrec := ih (ch.origIndex + ch.delLines.length) bound
      (ch.origIndex + p + ch.delLines.length) h4
      (fun c hc => hdel c (List.mem_cons_of_mem ch hc)) (by omega)
    constructor
    · show (decide (c0 ≤ ch.origIndex + p) &&
        ((fl.drop (ch.origIndex + p)).take ch.delLines.length == ch.delLines) &&
        chunksClean fl (ch.origIndex + p + ch.delLines.length)
          (rebaseChunks rest p)) = true
      rw [Bool.and_eq_true, Bool.and_eq_true]
      refine ⟨⟨decide_eq_true (by omega), ?_⟩, hrec.1⟩
      rw [beq_iff_eq, Nat.add_comm ch.origIndex p]
      exact hd
    · show chunkEnd c0 (⟨ch.origIndex + p, ch.delLines, ch.insLines⟩ ::
        rebaseChunks rest p) ≤ p + bound
      unfold chunkEnd
      exact hrec.2

lemma chunksClean_append {fl : List Line} :
    ∀ (A B : List Chunk) (c0 : Nat),
      chunksClean fl c0 A = true → chunksClean fl (chunkEnd c0 A) B = true →
      chunksClean fl c0 (A ++ B) = true := by
  intro A
  induction A with
  | nil => intro B c0 _ hB; exact hB
  | cons ch rest ih =>
    intro B c0 hA hB
    unfold chunksClean at hA
    rw [Bool.and_eq_true, Bool.and_eq_true] at hA
    obtain ⟨⟨h1, h2⟩, h3⟩ := hA
    show (decide (c0 ≤ ch.origIndex) &&
      ((fl.drop ch.origIndex).take ch.delLines.length == ch.delLines) &&
      chunksClean fl (ch.origIndex + ch.delLines.length) (rest ++ B)) = true
    rw [Bool.and_eq_true, Bool.and_eq_true]
    exact ⟨⟨h1, h2⟩, ih B _ h3 hB⟩

lemma applyChunks_ok_of_clean {fl : List Line} :
    ∀ (chunks : List Chunk) (cursor : Nat) (dest : List Line),
      chunksClean fl cursor chunks = true →
      applyChunks fl chunks cursor dest =
        .ok (dest ++ spliceChunks fl chunks cursor) := by
  intro chunks
  induction chunks with
  | nil => intro cursor dest _; rfl
  | cons ch rest ih =>
    intro cursor dest h
    unfold chunksClean at h
    rw [Bool.and_eq_true, Bool.and_eq_true] at h
    obtain ⟨⟨h1, h2⟩, h3⟩ := h
    have h1' := of_decide_eq_true h1
    unfold applyChunks
    rw [if_neg (by omega)]
    dsimp only
    rw [if_pos (beq_iff_eq.mpr (beq_iff_eq.mp h2).symm)]
    rw [ih _ _ h3]
    rw [show spliceChunks fl (ch :: rest) cursor =
      (fl.drop cursor).take (ch.origIndex - cursor) ++ ch.insLines ++
        spliceChunks fl rest (ch.origIndex + ch.delLines.length) from rfl]
    simp only [List.append_assoc]

/-- The marker step of the section loop accepts `rest`, consuming it to
`rest1`: a bare "@@" first line, or — only on the first iteration — the
section body directly (no marker line, nothing consumed). -/
def MarkerOk (rest rest1 : List Line) (first : Bool) : Prop :=
  rest = ("@@".toList) :: rest1 ∨
    (first = true ∧ rest1 = rest ∧
      ∀ l, rest.head? = some l →
        l ≠ ("@@".toList) ∧ ("@@ ".toList).isPrefixOf l = false)

/-- A diff (as patch lines) resolvedly describes an edit of fl: sections
are introduced by bare "@@" markers; each section's context matches the
file at its position p exactly (adding no fuzz) or merely after stripping
trailing whitespace (adding fuzz 1, with delete lines still matching the
file verbatim); p is where the matcher resolves — the first occurrence at
or after the running cursor, or the file tail for an end-of-file section.
The chunks index collects every section's chunks rebased by its position;
the fuzz index adds one per whitespace-tier section. -/
inductive Describes (fl : List Line) :
    List Line → Bool → Nat → List Chunk → Nat → Prop where
  | nil : ∀ (first : Bool) (fileIndex : Nat),
      Describes fl [] first fileIndex [] 0
  | consExact :
      ∀ (rest rest1 : List Line) (first : Bool) (fileIndex p : Nat)
        (sect : PSection) (restChunks : List Chunk) (restFuzz : Nat),
        MarkerOk rest rest1 first →
        peekNextSection rest1 = .ok sect →
        fileIndex ≤ p →
        (fl.drop p).take sect.context.length = sect.context →
        (if sect.eof = true then p + sect.context.length = fl.length
          else ∀ q, fileIndex ≤ q → q < p →
            (fl.drop q).take sect.context.length ≠ sect.context) →
        Describes fl sect.remaining false (p + sect.context.length)
          restChunks restFuzz →
        Describes fl rest first fileIndex
          (rebaseChunks sect.chunks p ++ restChunks) restFuzz
  | consWs :
      ∀ (rest rest1 : List Line) (first : Bool) (fileIndex p : Nat)
        (sect : PSection) (restChunks : List Chunk) (restFuzz : Nat),
        MarkerOk rest rest1 first →
        peekNextSection rest1 = .ok sect →
        sect.eof = false →
        sect.context ≠ [] →
        fileIndex ≤ p →
        matchAt rstrip fl sect.context p →
        (∀ q, fileIndex ≤ q → ¬ matchAt id fl sect.context q) →
        (∀ q, fileIndex ≤ q → q < p → ¬ matchAt rstrip fl sect.context q) →
        (∀ ch ∈ sect.chunks,
          (fl.drop (p + ch.origIndex)).take ch.delLines.length =
            ch.delLines) →
        Describes fl sect.remaining false (p + sect.context.length)
          restChunks restFuzz →
        Describes fl rest first fileIndex
          (rebaseChunks sect.chunks p ++ restChunks) (1 + restFuzz)

lemma matchAt_id_iff {fl ctx : List Line} {q : Nat} (hne : ctx ≠ []) :
    matchAt id fl ctx q ↔ (fl.drop q).take ctx.length = ctx := by
  constructor
  · intro h
    have h2 := h.2
    unfold windowEq at h2
    rw [beq_iff_eq] at h2
    simpa using h2
  · intro h
    have hc : 0 < ctx.length := List.length_pos.mpr hne
    refine ⟨?_, ?_⟩
    · have hl := congrArg List.length h
      simp only [List.length_take, List.length_drop] at hl
      omega
    · unfold windowEq
      rw [beq_iff_eq]
      simp [h]

lemma findContext_exact {fl ctx : List Line} {fi p : Nat} {eof : Bool}
    (hfp : fi ≤ p)
    (hwin : (fl.drop p).take ctx.length = ctx)
    (hres : if eof = true then p + ctx.length = fl.length
            else ∀ q, fi ≤ q → q < p →
              (fl.drop q).take ctx.length ≠ ctx) :
    findContext fl ctx fi eof = (some p, 0) := by
  by_cases hne : ctx = []
  · subst hne
    cases eof with
    | false =>
      rw [if_neg (by decide)] at hres
      have hp : p = fi := by
        by_contra hc
        have hlt : fi < p := Nat.lt_of_le_of_ne hfp (fun he => hc he.symm)
        exact hres fi (Nat.le_refl fi) hlt (by simp)
      subst hp
      simp [findContext, findContextCore]
    | true =>
      rw [if_pos rfl] at hres
      simp only [List.length_nil, Nat.add_zero] at hres
      subst hres
      simp [findContext, findContextCore]
  · have hc : 0 < ctx.length := List.length_pos.mpr hne
    have hm : matchAt id fl ctx p := (matchAt_id_iff hne).mpr hwin
    cases eof with
    | false =>
      rw [if_neg (by decide)] at hres
      unfold findContext
      rw [if_neg (by decide)]
      refine (c5_threeTier fl ctx fi hne).1 p hfp hm ?_
      intro q h1 h2 hmq
      exact hres q h1 h2 ((matchAt_id_iff hne).mp hmq)
    | true =>
      rw [if_pos rfl] at hres
      have hble := hm.1
      have hp : p = fl.length - ctx.length := by omega
      unfold findContext
      rw [if_pos rfl]
      have hcore : findContextCore fl ctx (fl.length - ctx.length) =
          (some p, 0) := by
        refine (c5_threeTier fl ctx (fl.length - ctx.length) hne).1 p
          (by omega) hm ?_
        intro q h1 h2
        omega
      rw [hcore]

lemma findContext_ws {fl ctx : List Line} {fi p : Nat}
    (hne : ctx ≠ []) (hfp : fi ≤ p)
    (hm : matchAt rstrip fl ctx p)
    (hnoid : ∀ q, fi ≤ q → ¬ matchAt id fl ctx q)
    (hmin : ∀ q, fi ≤ q → q < p → ¬ matchAt rstrip fl ctx q) :
    findContext fl ctx fi false = (some p, 1) := by
  unfold findContext
  rw [if_neg (by decide)]
  exact (c5_threeTier fl ctx fi hne).2.1 hnoid p hfp hm hmin

lemma updateLoop_marker_eval (fl : List Line) (fuel : Nat)
    (rest1 : List Line) (first : Bool) (fi fz0 : Nat) (acc : List Chunk) :
    updateLoop fl (fuel + 1) (("@@".toList) :: rest1) first fi fz0 acc =
      (match peekNextSection rest1 with
       | .error e => .error e
       | .ok sect =>
         match findContext fl sect.context fi sect.eof with
         | (none, _) =>
             .error (if sect.eof = true then .invalidEofContext fi sect.context
                     else .invalidContext fi sect.context)
         | (some idx, f2) =>
             updateLoop fl fuel sect.remaining false
               (idx + sect.context.length) (fz0 + f2)
               (acc ++ rebaseChunks sect.chunks idx)) := rfl

lemma updateLoop_nomarker_eval (fl : List Line) (fuel : Nat) (line : Line)
    (restT : List Line) (fi fz0 : Nat) (acc : List Chunk)
    (h1 : ("@@ ".toList).isPrefixOf line = false)
    (h2 : line ≠ ("@@".toList)) :
    updateLoop fl (fuel + 1) (line :: restT) true fi fz0 acc =
      (match peekNextSection (line :: restT) with
       | .error e => .error e
       | .ok sect =>
         match findContext fl sect.context fi sect.eof with
         | (none, _) =>
             .error (if sect.eof = true then .invalidEofContext fi sect.context
                     else .invalidContext fi sect.context)
         | (some idx, f2) =>
             updateLoop fl fuel sect.remaining false
               (idx + sect.context.length) (fz0 + f2)
               (acc ++ rebaseChunks sect.chunks idx)) := by
  conv_lhs => unfold updateLoop
  rw [if_neg (by rw [h1]; exact Bool.false_ne_true), if_neg h2, if_pos rfl]
  dsimp only
  rw [if_neg (by decide)]

lemma describes_updateLoop {fl : List Line} :
    ∀ {rest : List Line} {first : Bool} {fi : Nat} {chunks : List Chunk}
      {fz : Nat},
      Describes fl rest first fi chunks fz →
      ∀ (fuel fz0 : Nat) (acc : List Chunk), rest.length < fuel →
        updateLoop fl fuel rest first fi fz0 acc =
          .ok (acc ++ chunks, fz0 + fz) := by
  intro rest first fi chunks fz hd
  induction hd with
  | nil first fileIndex =>
    intro fuel fz0 acc hfuel
    cases fuel with
    | zero => simp at hfuel
    | succ k =>
      rw [show updateLoop fl (k + 1) [] first fileIndex fz0 acc =
        .ok (acc, fz0) from rfl]
      rw [List.append_nil, Nat.add_zero]
  | consExact rest rest1 first fi p sect restChunks restFuzz hmark hpeek hfp hwin hres hrest ih =>
    intro fuel fz0 acc hfuel
    have hfind : findContext fl sect.context fi sect.eof = (some p, 0) :=
      findContext_exact hfp hwin hres
    have hremlt := (peekNextSection_remaining_lt hpeek).1
    rcases hmark with hA | ⟨hfirst, hrest1, hhead⟩
    · subst hA
      have hlen : rest1.length + 1 < fuel := by simpa using hfuel
      cases fuel with
      | zero => omega
      | succ k =>
        rw [updateLoop_marker_eval, hpeek]
        dsimp only
        rw [hfind]
        dsimp only
        rw [ih k (fz0 + 0) (acc ++ rebaseChunks sect.chunks p) (by omega)]
        rw [List.append_assoc, Nat.add_zero]
    · subst hrest1
      subst hfirst
      have hne2 : rest1 ≠ [] := by
        intro hr
        rw [hr, show peekNextSection ([] : List Line) =
          .error (.nothingInSection []) from rfl] at hpeek
        cases hpeek
      cases rest1 with
      | nil => exact absurd rfl hne2
      | cons line restT =>
        obtain ⟨hl1, hl2⟩ := hhead line rfl
        have hlen : restT.length + 1 < fuel := by simpa using hfuel
        cases fuel with
        | zero => omega
        | succ k =>
          rw [updateLoop_nomarker_eval fl k line restT fi fz0 acc hl2 hl1]
          rw [hpeek]
          dsimp only
          rw [hfind]
          dsimp only
          have hlt2 : sect.remaining.length < k := by
            have h5 := hremlt
            simp only [List.length_cons] at h5
            omega
          rw [ih k (fz0 + 0) (acc ++ rebaseChunks sect.chunks p) hlt2]
          rw [List.append_assoc, Nat.add_zero]
  | consWs rest rest1 first fi p sect restChunks restFuzz hmark hpeek heof hnectx hfp hm hnoid hmin hdel hrest ih =>
    intro fuel fz0 acc hfuel
    have hfind : findContext fl sect.context fi sect.eof = (some p, 1) := by
      rw [heof]
      exact findContext_ws hnectx hfp hm hnoid hmin
    have hremlt := (peekNextSection_remaining_lt hpeek).1
    rcases hmark with hA | ⟨hfirst, hrest1, hhead⟩
    · subst hA
      have hlen : rest1.length + 1 < fuel := by simpa using hfuel
      cases fuel with
      | zero => omega
      | succ k =>
        rw [updateLoop_marker_eval, hpeek]
        dsimp only
        rw [hfind]
        dsimp only
        rw [ih k (fz0 + 1) (acc ++ rebaseChunks sect.chunks p) (by omega)]
        rw [List.append_assoc, Nat.add_assoc]
    · subst hrest1
      subst hfirst
      have hne2 : rest1 ≠ [] := by
        intro hr
        rw [hr, show peekNextSection ([] : List Line) =
          .error (.nothingInSection []) from rfl] at hpeek
        cases hpeek
      cases rest1 with
      | nil => exact absurd rfl hne2
      | cons line restT =>
        obtain ⟨hl1, hl2⟩ := hhead line rfl
        have hlen : restT.length + 1 < fuel := by simpa using hfuel
        cases fuel with
        | zero => omega
        | succ k =>
          rw [updateLoop_nomarker_eval fl k line restT fi fz0 acc hl2 hl1]
          rw [hpeek]
          dsimp only
          rw [hfind]
          dsimp only
          have hlt2 : sect.remaining.length < k := by
            have h5 := hremlt
            simp only [List.length_cons] at h5
            omega
          rw [ih k (fz0 + 1) (acc ++ rebaseChunks sect.chunks p) hlt2]
          rw [List.append_assoc, Nat.add_assoc]

lemma describes_chunksClean {fl : List Line} :
    ∀ {rest : List Line} {first : Bool} {fi : Nat} {chunks : List Chunk}
      {fz : Nat},
      Describes fl rest first fi chunks fz →
      ∀ c0, c0 ≤ fi → chunksClean fl c0 chunks = true := by
  intro rest first fi chunks fz hd
  induction hd with
  | nil _ _ => intro c0 _; rfl
  | consExact rest rest1 first fi p sect restChunks restFuzz hmark hpeek hfp hwin hres hrest ih =>
    intro c0 hc0
    have hwf := peekNextSection_wf hpeek
    have hdel := wf_del_of_window hwin hwf
    have hcr := chunksClean_rebase sect.chunks 0 sect.context.length c0 hwf
      hdel (by omega)
    refine chunksClean_append _ _ _ hcr.1 (ih _ ?_)
    have := hcr.2
    omega
  | consWs rest rest1 first fi p sect restChunks restFuzz hmark hpeek heof hnectx hfp hm hnoid hmin hdel hrest ih =>
    intro c0 hc0
    have hwf := peekNextSection_wf hpeek
    have hcr := chunksClean_rebase sect.chunks 0 sect.context.length c0 hwf
      hdel (by omega)
    refine chunksClean_append _ _ _ hcr.1 (ih _ ?_)
    have := hcr.2
    omega

/-- A well-formed line of a line-based file model: no embedded newline (it
would change the splitting) and no carriage return (it would be rewritten
by normalization). -/
def lineOK (l : Line) : Prop := '\n' ∉ l ∧ '\r' ∉ l

instance (l : Line) : Decidable (lineOK l) := by
  unfold lineOK; infer_instance

lemma replCRLF_id : ∀ {t : List Char}, '\r' ∉ t → replCRLF t = t := by
  intro t
  induction t with
  | nil => intro _; rfl
  | cons c rest ih =>
    intro h
    have hc : c ≠ '\r' := fun he => h (he ▸ List.mem_cons_self c rest)
    cases rest with
    | nil => rfl
    | cons d rest2 =>
      show replCRLF (c :: d :: rest2) = c :: d :: rest2
      unfold replCRLF
      rw [if_neg (by simp [hc])]
      rw [ih (fun hm => h (List.mem_cons_of_mem c hm))]

lemma replCR_id {t : List Char} (h : '\r' ∉ t) : replCR t = t := by
  unfold replCR
  induction t with
  | nil => rfl
  | cons c rest ih =>
    rw [List.map_cons]
    rw [if_neg (fun he => h (by rw [← he]; exact List.mem_cons_self c rest))]
    rw [ih (fun hm => h (List.mem_cons_of_mem c hm))]

lemma normalizeLineEndings_id {t : List Char} (h : '\r' ∉ t) :
    normalizeLineEndings t = t := by
  unfold normalizeLineEndings
  rw [replCRLF_id h, replCR_id h]

lemma splitSep_single {sep : Char} :
    ∀ {x : List Char}, sep ∉ x → splitSep sep x = [x] := by
  intro x
  induction x with
  | nil => intro _; rfl
  | cons c rest ih =>
    intro h
    conv_lhs => unfold splitSep
    rw [if_neg (fun he => h (by rw [← he]; exact List.mem_cons_self c rest))]
    rw [ih (fun hm => h (List.mem_cons_of_mem c hm))]

lemma splitSep_append_sep {sep : Char} {t : List Char} :
    ∀ {x : List Char}, sep ∉ x →
      splitSep sep (x ++ sep :: t) = x :: splitSep sep t := by
  intro x
  induction x with
  | nil =>
    intro _
    show splitSep sep (sep :: t) = [] :: splitSep sep t
    conv_lhs => unfold splitSep
    rw [if_pos rfl]
  | cons c rest ih =>
    intro h
    show splitSep sep (c :: (rest ++ sep :: t)) = (c :: rest) :: splitSep sep t
    conv_lhs => unfold splitSep
    rw [if_neg (fun he => h (by rw [← he]; exact List.mem_cons_self c rest))]
    rw [ih (fun hm => h (List.mem_cons_of_mem c hm))]

lemma splitSep_joinSep {sep : Char} :
    ∀ {ls : List (List Char)}, ls ≠ [] → (∀ l ∈ ls, sep ∉ l) →
      splitSep sep (joinSep sep ls) = ls := by
  intro ls
  induction ls with
  | nil => intro h _; exact absurd rfl h
  | cons x rest ih =>
    intro _ hall
    cases rest with
    | nil => exact splitSep_single (hall x (List.mem_cons_self x []))
    | cons y rest2 =>
      rw [joinSep_cons_cons]
      rw [splitSep_append_sep (hall x (List.mem_cons_self x (y :: rest2)))]
      rw [ih (by intro hc; cases hc)
        (fun l hl => hall l (List.mem_cons_of_mem x hl))]

lemma noCR_joinNl {ls : List Line} (h : ∀ l ∈ ls, '\r' ∉ l) :
    '\r' ∉ joinSep '\n' ls := by
  intro hc
  rcases mem_joinSep hc with h1 | ⟨l, hl, hcl⟩
  · cases h1
  · exact h l hl hcl

lemma fileLinesOf_joinNl {fl : List Line} (hne : fl ≠ [])
    (hok : ∀ l ∈ fl, lineOK l) : fileLinesOf (joinSep '\n' fl) = fl := by
  unfold fileLinesOf
  rw [normalizeLineEndings_id (noCR_joinNl (fun l hl => (hok l hl).2))]
  exact splitSep_joinSep hne (fun l hl => (hok l hl).1)

lemma patchLinesOf_joinNl {pl : List Line} (hok : ∀ l ∈ pl, lineOK l)
    (hlast : pl.getLast? ≠ some []) :
    patchLinesOf (joinSep '\n' pl) = pl := by
  unfold patchLinesOf
  cases pl with
  | nil => rfl
  | cons x rest =>
    rw [normalizeLineEndings_id
      (noCR_joinNl (fun l hl => (hok l hl).2))]
    rw [splitSep_joinSep (by intro hc; cases hc)
      (fun l hl => (hok l hl).1)]
    unfold dropTrailingEmpty
    rw [if_neg hlast]

lemma describes_apply {fl pl : List Line} {chunks : List Chunk} {fz : Nat}
    (hfl : fl ≠ []) (hflOK : ∀ l ∈ fl, lineOK l)
    (hplOK : ∀ l ∈ pl, lineOK l) (hlast : pl.getLast? ≠ some [])
    (hd : Describes fl pl true 0 chunks fz) :
    applyV4AUpdate (joinSep '\n' fl) (joinSep '\n' pl) =
      .ok (joinSep '\n' (spliceChunks fl chunks 0), fz) := by
  have hple : patchLinesOf (joinSep '\n' pl) = pl :=
    patchLinesOf_joinNl hplOK hlast
  have hfle : fileLinesOf (joinSep '\n' fl) = fl :=
    fileLinesOf_joinNl hfl hflOK
  unfold applyV4AUpdate resolvePhase
  rw [hple, hfle]
  rw [describes_updateLoop hd (pl.length + 1) 0 [] (by omega)]
  dsimp only
  rw [List.nil_append]
  rw [applyChunks_ok_of_clean chunks 0 []
    (describes_chunksClean hd 0 (Nat.le_refl 0))]
  rw [List.nil_append, Nat.zero_add]

/-- C1 (amended): for every original file (as newline-free lines) and every
V4A update diff with bare "@@" markers that correctly describes a
transformation — each section's context occurring verbatim at its resolved
position, which is the first occurrence at or after the running cursor (at
the tail, for an end-of-file section) — applyV4AUpdate returns exactly the
described target (the chunks spliced into the file) with fuzz 0. -/
theorem c1_roundTrip_amended (fileLines patchLines : List Line)
    (chunks : List Chunk)
    (h1 : fileLines ≠ []) (h2 : ∀ l ∈ fileLines, lineOK l)
    (h3 : ∀ l ∈ patchLines, lineOK l)
    (h4 : patchLines.getLast? ≠ some [])
    (hd : Describes fileLines patchLines true 0 chunks 0) :
    applyV4AUpdate (joinSep '\n' fileLines) (joinSep '\n' patchLines) =
      .ok (joinSep '\n' (spliceChunks fileLines chunks 0), 0) :=
  describes_apply h1 h2 h3 h4 hd

/-- C1 witness: a two-line file and a one-section diff, resolved at the
first occurrence, round-trips with fuzz 0. -/
theorem c1_roundTrip_amended_witness :
    applyV4AUpdate ("a\nb".toList) ("@@\n-a\n+c".toList) =
      .ok ("c\nb".toList, 0) := by
  have hd : Describes [['a'], ['b']] [['@', '@'], ['-', 'a'], ['+', 'c']]
      true 0 [⟨0, [['a']], [['c']]⟩] 0 := by
    refine Describes.consExact _ [['-', 'a'], ['+', 'c']] true 0 0
      ⟨[['a']], [⟨0, [['a']], [['c']]⟩], [], false⟩ [] 0
      (Or.inl (by decide)) (by decide) (Nat.le_refl 0) (by decide) ?_ ?_
    · rw [if_neg (by decide)]
      intro q _ hq
      exact absurd hq (Nat.not_lt_zero q)
    · exact Describes.nil false 1
  exact (c1_roundTrip_amended [['a'], ['b']]
    [['@', '@'], ['-', 'a'], ['+', 'c']] [⟨0, [['a']], [['c']]⟩]
    (by decide) (by decide) (by decide) (by decide) hd).trans (by decide)

/-- The round-trip claim's literal notion of a diff correctly describing a
transformation, from the claim's words: sections in order, each section's
context occurring verbatim at its intended position (hence its delete lines
equal the original lines there); the described target is the file with the
recorded chunks spliced in at those positions.  No first-occurrence
condition. -/
inductive DescribesLit (fl : List Line) :
    List Line → Bool → Nat → List Chunk → Prop where
  | nil : ∀ (first : Bool) (fileIndex : Nat),
      DescribesLit fl [] first fileIndex []
  | cons :
      ∀ (rest rest1 : List Line) (first : Bool) (fileIndex p : Nat)
        (sect : PSection) (restChunks : List Chunk),
        MarkerOk rest rest1 first →
        peekNextSection rest1 = .ok sect →
        fileIndex ≤ p →
        (fl.drop p).take sect.context.length = sect.context →
        DescribesLit fl sect.remaining false (p + sect.context.length)
          restChunks →
        DescribesLit fl rest first fileIndex
          (rebaseChunks sect.chunks p ++ restChunks)

/-- C1 counterexample: the file "a\na" and the diff "@@ -a +b" with intended
position 1 (context "a" occurs verbatim there, delete lines equal the
original lines there, target "a\nb") — yet applyV4AUpdate resolves the
context at the earlier position 0 and returns "b\na" with fuzz 0, not the
described target. -/
theorem c1_counterexample :
    DescribesLit (fileLinesOf ("a\na".toList))
      (patchLinesOf ("@@\n-a\n+b".toList)) true 0
      [⟨1, [['a']], [['b']]⟩] ∧
    joinSep '\n' (spliceChunks (fileLinesOf ("a\na".toList))
      [⟨1, [['a']], [['b']]⟩] 0) = ("a\nb".toList) ∧
    applyV4AUpdate ("a\na".toList) ("@@\n-a\n+b".toList) =
      .ok ("b\na".toList, 0) ∧
    ("b\na".toList) ≠ ("a\nb".toList) := by
  refine ⟨?_, by decide, by decide, by decide⟩
  refine DescribesLit.cons _ [['-', 'a'], ['+', 'b']] true 0 1
    ⟨[['a']], [⟨0, [['a']], [['b']]⟩], [], false⟩ []
    (Or.inl (by decide)) (by decide) (by omega) (by decide) ?_
  exact DescribesLit.nil false 2

/-- C2 (amended): when every kept context line matches its target line
after stripping trailing whitespace (resolving at the whitespace tier), but
every delete line matches the target verbatim, application succeeds; the
fuzz is the number of whitespace-tier sections (so at least 1 when any
section resolved fuzzily), and the emitted text takes kept lines from the
target file and inserted lines from the diff (the splice of the file). -/
theorem c2_whitespace_amended (fileLines patchLines : List Line)
    (chunks : List Chunk) (fuzz : Nat)
    (h1 : fileLines ≠ []) (h2 : ∀ l ∈ fileLines, lineOK l)
    (h3 : ∀ l ∈ patchLines, lineOK l)
    (h4 : patchLines.getLast? ≠ some [])
    (hd : Describes fileLines patchLines true 0 chunks fuzz)
    (hf : 1 ≤ fuzz) :
    applyV4AUpdate (joinSep '\n' fileLines) (joinSep '\n' patchLines) =
      .ok (joinSep '\n' (spliceChunks fileLines chunks 0), fuzz) ∧
    1 ≤ fuzz :=
  ⟨describes_apply h1 h2 h3 h4 hd, hf⟩

/-- C2 witness: the file "a \nx" (trailing space on the kept line) and the
diff "@@ / a / -x / +y": the context resolves at the whitespace tier, the
delete line matches verbatim, and the output keeps the file's "a " while
inserting the diff's "y", with fuzz 1. -/
theorem c2_whitespace_amended_witness :
    applyV4AUpdate ("a \nx".toList) ("@@\n a\n-x\n+y".toList) =
      .ok ("a \ny".toList, 1) := by
  have hd : Describes [['a', ' '], ['x']]
      [['@', '@'], [' ', 'a'], ['-', 'x'], ['+', 'y']] true 0
      [⟨1, [['x']], [['y']]⟩] 1 := by
    refine Describes.consWs _ [[' ', 'a'], ['-', 'x'], ['+', 'y']] true 0 0
      ⟨[['a'], ['x']], [⟨1, [['x']], [['y']]⟩], [], false⟩ [] 0
      (Or.inl (by decide)) (by decide) (by decide) (by decide)
      (Nat.le_refl 0) (by decide) ?_ ?_ (by decide) ?_
    · intro q _ hm
      have hb : q + 2 ≤ 2 := by simpa using hm.1
      have hq : q = 0 := by omega
      subst hq
      exact absurd hm.2 (by decide)
    · intro q _ hq
      exact absurd hq (Nat.not_lt_zero q)
    · exact Describes.nil false 2
  exact (c2_whitespace_amended [['a', ' '], ['x']]
    [['@', '@'], [' ', 'a'], ['-', 'x'], ['+', 'y']]
    [⟨1, [['x']], [['y']]⟩] 1 (by decide) (by decide) (by decide)
    (by decide) hd (Nat.le_refl 1)).1.trans (by decide)

/-- The whitespace-tolerance claim's literal hypothesis, from the spec's
words: sections in order, and every context/delete line matching its
corresponding target line only after stripping trailing whitespace
(rstrip-equal but not equal). -/
inductive DescribesLitWs (fl : List Line) :
    List Line → Bool → Nat → Prop where
  | nil : ∀ (first : Bool) (fileIndex : Nat), DescribesLitWs fl [] first fileIndex
  | cons :
      ∀ (rest rest1 : List Line) (first : Bool) (fileIndex p : Nat)
        (sect : PSection),
        MarkerOk rest rest1 first →
        peekNextSection rest1 = .ok sect →
        fileIndex ≤ p →
        p + sect.context.length ≤ fl.length →
        (∀ j, j < sect.context.length →
          rstrip (fl.getD (p + j) []) = rstrip (sect.context.getD j []) ∧
          fl.getD (p + j) [] ≠ sect.context.getD j []) →
        DescribesLitWs fl sect.remaining false (p + sect.context.length) →
        DescribesLitWs fl rest first fileIndex

/-- C2 counterexample: the file "a " and the diff "@@ -a +b", whose single
context/delete line "a" matches the target line "a " only after stripping
trailing whitespace — yet application does not succeed: the delete-line
verification compares verbatim and raises the conflict error. -/
theorem c2_counterexample :
    DescribesLitWs (fileLinesOf ("a ".toList))
      (patchLinesOf ("@@\n-a\n+b".toList)) true 0 ∧
    applyV4AUpdate ("a ".toList) ("@@\n-a\n+b".toList) =
      .error (.conflict 1 [['a']] [['a', ' ']]) := by
  constructor
  · refine DescribesLitWs.cons _ [['-', 'a'], ['+', 'b']] true 0 0
      ⟨[['a']], [⟨0, [['a']], [['b']]⟩], [], false⟩
      (Or.inl (by decide)) (by decide) (Nat.le_refl 0) (by decide)
      (by decide) ?_
    exact DescribesLitWs.nil false 1
  · decide

end V4A








